import Mathlib

/-!
Verification of the wiktionary part-of-speech extraction pipeline.

This file gives a shallow embedding, in Lean, of the core of the
repository: the `Tag` / `TagSet` bitmask algebra (`src/tags.rs`), the
page parser and tag-candidate scanner of the regenerate binary
(`src/bin/regenerate/parse.rs`), the page-stream / main loop and the
aggregation step (`src/bin/regenerate/regenerate.rs`), and a model of
the wrapped `fst` map builder / reader (external crate; modelled from
the spec's stated contract).

Machine integers (`u32` / `u64`) are modelled as `Nat`; every mask the
program actually builds is below `2 ^ 14`, and the `as u32` cast is
modelled by `% 2 ^ 32` where an arbitrary 64-bit value could flow in.
Rust panics and `Err` returns are both modelled with `Option` /
`Except`.
-/

/-- The closed enumeration of 13 grammatical categories, in the order of
its declaration in `src/tags.rs` (the canonical enumeration). -/
inductive Tag where
  | Adjective
  | Adverb
  | Conjunction
  | Determiner
  | Interjection
  | Noun
  | Numeral
  | Particle
  | Postposition
  | Preposition
  | Pronoun
  | ProperNoun
  | Verb
deriving DecidableEq, Repr, Fintype

/-- `Tag::to_mask` from `src/tags.rs`: `1 << n` where `n` is the number
the source's `match` assigns to the variant (1 for `Adjective` … 13 for
`Verb`). -/
def Tag.to_mask (t : Tag) : Nat :=
  1 <<< (match t with
    | Tag.Adjective => 1
    | Tag.Adverb => 2
    | Tag.Conjunction => 3
    | Tag.Determiner => 4
    | Tag.Interjection => 5
    | Tag.Noun => 6
    | Tag.Numeral => 7
    | Tag.Particle => 8
    | Tag.Postposition => 9
    | Tag.Preposition => 10
    | Tag.Pronoun => 11
    | Tag.ProperNoun => 12
    | Tag.Verb => 13)

/-- `Tag::from_u32` from `src/tags.rs`.  The source `match` panics on
any argument other than 1..13; the panic is modelled by `none`. -/
def Tag.from_u32 (i : Nat) : Option Tag :=
  if i = 1 then some Tag.Adjective
  else if i = 2 then some Tag.Adverb
  else if i = 3 then some Tag.Conjunction
  else if i = 4 then some Tag.Determiner
  else if i = 5 then some Tag.Interjection
  else if i = 6 then some Tag.Noun
  else if i = 7 then some Tag.Numeral
  else if i = 8 then some Tag.Particle
  else if i = 9 then some Tag.Postposition
  else if i = 10 then some Tag.Preposition
  else if i = 11 then some Tag.Pronoun
  else if i = 12 then some Tag.ProperNoun
  else if i = 13 then some Tag.Verb
  else none

/-- The 0-based index of a tag in the canonical 13-tag enumeration
(declaration order).  Auxiliary notion used by the claims, not a
function of the source. -/
def Tag.index (t : Tag) : Nat :=
  match t with
  | Tag.Adjective => 0
  | Tag.Adverb => 1
  | Tag.Conjunction => 2
  | Tag.Determiner => 3
  | Tag.Interjection => 4
  | Tag.Noun => 5
  | Tag.Numeral => 6
  | Tag.Particle => 7
  | Tag.Postposition => 8
  | Tag.Preposition => 9
  | Tag.Pronoun => 10
  | Tag.ProperNoun => 11
  | Tag.Verb => 12

/-- The canonical enumeration of all 13 tags, in declaration order. -/
def allTags : List Tag :=
  [Tag.Adjective, Tag.Adverb, Tag.Conjunction, Tag.Determiner,
   Tag.Interjection, Tag.Noun, Tag.Numeral, Tag.Particle,
   Tag.Postposition, Tag.Preposition, Tag.Pronoun, Tag.ProperNoun,
   Tag.Verb]

/-- `TagSet::_insert_tag` / `insert_tag` from `src/tags.rs`:
`self.0 |= tag.to_mask()`.  A `TagSet`'s `u32` mask is modelled as a
`Nat`. -/
def TagSet.insert_tag (m : Nat) (t : Tag) : Nat :=
  m ||| t.to_mask

/-- `TagSet::of` from `src/tags.rs`: fold `_insert_tag` over the input
starting from the default (zero) mask. -/
def TagSet.of (l : List Tag) : Nat :=
  l.foldl TagSet.insert_tag 0

/-- `TagSet::from_mask` from `src/tags.rs`. -/
def TagSet.from_mask (mask : Nat) : Nat := mask

/-- `TagSet::is_empty` from `src/tags.rs`. -/
def TagSet.is_empty (m : Nat) : Bool := m == 0

/-- `TagSet::remove_tag_set` from `src/tags.rs`: `self.0 & !tag_set.0`.
The `u32` complement `!excl` is `excl ^^^ (2^32 - 1)` for `excl` in
`u32` range. -/
def TagSet.remove_tag_set (m excl : Nat) : Nat :=
  m &&& (excl ^^^ (2 ^ 32 - 1))

/-- `TagSet::extend` from `src/tags.rs`: `self.0 |= other.0`. -/
def TagSet.extend (m other : Nat) : Nat :=
  m ||| other

/-- `TagSet::insert_tag_mask` from `src/tags.rs`: `self.0 |= tag`. -/
def TagSet.insert_tag_mask (m mask : Nat) : Nat :=
  m ||| mask

/-- Fuelled bit length (the fuel is the bit width, 32). -/
def bitLenFuel : Nat → Nat → Nat
  | 0, _ => 0
  | fuel + 1, m => if m = 0 then 0 else bitLenFuel fuel (m / 2) + 1

/-- Bit length of a `u32` value: `32 - leading_zeros`, i.e. the position
just above the highest set bit (0 for 0). -/
def bitLen (m : Nat) : Nat :=
  bitLenFuel 32 m

/-- Fuelled count of trailing zero bits (the fuel is the bit width, 32):
on 0 the fuel runs out and the count is the full width, matching
`u32::trailing_zeros(0) = 32`. -/
def tzFuel : Nat → Nat → Nat
  | 0, _ => 0
  | fuel + 1, m => if m % 2 = 1 then 0 else tzFuel fuel (m / 2) + 1

/-- `u32::trailing_zeros`. -/
def tz32 (m : Nat) : Nat := tzFuel 32 m

/-- The bit indices visited and kept by the iterator in `TagSet::tags`
(`src/tags.rs`): `repeat(mask).take(32 - leading_zeros).enumerate()
.skip(trailing_zeros)` visits indices `trailing_zeros ..
32 - leading_zeros`, and the `flat_map` keeps those whose bit is set. -/
def tagIndices (m : Nat) : List Nat :=
  ((List.range (bitLen m)).drop (tz32 m)).filter fun i => m.testBit i

/-- `TagSet::tags` from `src/tags.rs`: yield `Tag::from_u32 i` for each
kept bit index `i`.  An element `none` marks the panic inside
`Tag::from_u32`. -/
def TagSet.tags (m : Nat) : List (Option Tag) :=
  (tagIndices m).map Tag.from_u32

/-- Strict lexicographic order on char lists.  Rust compares `&str` keys
by their UTF-8 bytes; bytewise lexicographic order on UTF-8 coincides
with lexicographic order on the code points, which this computes. -/
def lexLt : List Char → List Char → Bool
  | [], [] => false
  | [], _ :: _ => true
  | _ :: _, [] => false
  | a :: as, b :: bs =>
    if a.toNat < b.toNat then true
    else if b.toNat < a.toNat then false
    else lexLt as bs

/-- Strict byte order on strings (models `str::cmp` being `Less`). -/
def strLt (a b : String) : Bool := lexLt a.toList b.toList

/-- Non-strict byte order on strings. -/
def strLe (a b : String) : Bool := !strLt b a

/-- Insert into a sorted list (one step of a stable insertion sort). -/
def insertSorted (le : α → α → Bool) (x : α) : List α → List α
  | [] => [x]
  | y :: t => if le x y then x :: y :: t else y :: insertSorted le x t

/-- Model of `Vec::sort_by` with a comparator on the first component
(`src/bin/regenerate/parse.rs` sorts alias pairs, `regenerate.rs` sorts
the aggregated pages, both by `a.0.cmp(&b.0)`): a stable sort by key. -/
def sortByKey (l : List (String × β)) : List (String × β) :=
  l.foldr (insertSorted (fun a b => strLe a.1 b.1)) []

/-- The literal `TAG_ALIASES` table of `src/bin/regenerate/parse.rs`. -/
def TAG_ALIASES : List (Tag × List String) :=
  [(Tag.Adjective,
    ["en-adj", "en-adjective", "en|head|adj", "en|head|adjective",
     "head|en|adjective"]),
   (Tag.Adverb,
    ["en-adv", "en-adverb", "en|head|adv", "en|head|adverb",
     "head|en|adverb"]),
   (Tag.Conjunction,
    ["en-con", "en-conj", "en-conjunction", "en-conj-simple",
     "en|head|con", "en|head|conj", "en|head|conjunction"]),
   (Tag.Determiner, ["en-det", "en|head|det", "head|en|determiner"]),
   (Tag.Interjection,
    ["en-interj", "en-interjection", "en-intj", "en|head|interj",
     "en|head|interjection", "head|en|interjection"]),
   (Tag.Noun,
    ["en-noun", "en|head|noun", "head|en|noun", "head|en|noun form",
     "en-plural noun"]),
   (Tag.Numeral, ["en-num", "en|head|num"]),
   (Tag.Particle, ["en-part", "en|head|part"]),
   (Tag.Postposition, ["en-postp", "en|head|postp"]),
   (Tag.Preposition, ["en-prep", "en|head|prep"]),
   (Tag.Pronoun, ["en-pron", "en|head|pron"]),
   (Tag.ProperNoun, ["en-proper noun", "en|head|proper noun"]),
   (Tag.Verb, ["en-verb", "head|en|verb", "head|en|verb form"])]

/-- The flat `(alias, tag)` pair list built in
`ParserRegexes::default` by `flat_map` over `TAG_ALIASES`. -/
def tagAliasPairs : List (String × Tag) :=
  TAG_ALIASES.foldr (fun p acc => p.2.map (fun a => (a, p.1)) ++ acc) []

/-- The alias pairs sorted by alias
(`tag_aliases.sort_by(|(alias1, _), (alias2, _)| alias1.cmp(alias2))`). -/
def sortedAliasPairs : List (String × Tag) :=
  sortByKey tagAliasPairs

/-- Lookup in the in-memory alias `fst::Map` built by inserting
`(alias, tag.to_mask() as u64)` in sorted order.  The map answers
exact-match lookups, i.e. association-list lookup on its (unique) keys.
The fst engine itself is an external crate; its reader is modelled from
the spec as an exact-match ordered map. -/
def aliasLookup (s : String) : Option Nat :=
  (sortedAliasPairs.lookup s).map Tag.to_mask

/-- The stop set of the capture's character class in `tag_regex`
(`src/bin/regenerate/parse.rs`): the captured token stops at the first
pipe, brace, digit, dot, or ampersand (`[^\|{}\d\.&]+`).  `\d` is
modelled as ASCII digits. -/
def stopChar (c : Char) : Bool :=
  c == '|' || c == '\x7b' || c == '\x7d' || c.isDigit || c == '.' || c == '&'

/-- The first alternative of the capture's prefix: `en-`. -/
def enPfx : List Char := ['e', 'n', '-']

/-- The second alternative of the capture's prefix: `head|en|`. -/
def headPfx : List Char := ['h', 'e', 'a', 'd', '|', 'e', 'n', '|']

/-- One alternative of the capture of `tag_regex`: a given prefix
(`en-` or `head|en|`) followed by a non-empty greedy run of non-stop
characters (`[^\|{}\d\.&]+`).  Returns the capture and the rest of the
input after it. -/
def matchTok (pfx t1 : List Char) : Option (List Char × List Char) :=
  if pfx.isPrefixOf t1 then
    let u := t1.drop pfx.length
    let tok := u.takeWhile fun c => !stopChar c
    if tok.isEmpty then none else some (pfx ++ tok, u.drop tok.length)
  else none

/-- One match attempt of `tag_regex` (`\{\{\s*((?:en\-|head\|en\|)
[^\|{}\d\.&]+)`) at the head of the input: two opening braces, a
(greedy, deterministic) run of whitespace, then the `en-` alternative
or, failing it, the `head|en|` alternative.  `\s` is modelled as
`Char.isWhitespace`. -/
def tryMatch : List Char → Option (List Char × List Char)
  | c1 :: c2 :: t =>
    if c1 = '\x7b' && c2 = '\x7b' then
      let t1 := t.dropWhile Char.isWhitespace
      match matchTok enPfx t1 with
      | some r => some r
      | none => matchTok headPfx t1
    else none
  | _ => none

/-- Fuelled scanner for `tag_regex.captures_iter`: leftmost,
non-overlapping matches; on a failed attempt the search advances one
character, on a success it resumes after the match.  The fuel (the
input length) only makes the recursion structural; `scanTags` below
always supplies enough. -/
def scanFuel : Nat → List Char → List (List Char)
  | 0, _ => []
  | fuel + 1, l =>
    match tryMatch l with
    | some (cap, after) => cap :: scanFuel fuel after
    | none =>
      match l with
      | [] => []
      | _ :: rest => scanFuel fuel rest

/-- `tag_regex.captures_iter(body)`: the candidate captures, in order. -/
def scanTags (l : List Char) : List (List Char) :=
  scanFuel l.length l

/-- `str::trim` (both ends, whitespace). -/
def trimChars (l : List Char) : List Char :=
  ((l.dropWhile Char.isWhitespace).reverse.dropWhile Char.isWhitespace).reverse

/-- The per-candidate tally pushed into `tag_counter` in `parse_page`:
every trimmed candidate, hit or miss. -/
def talliedTokens (body : List Char) : List String :=
  (scanTags body).map fun cap => String.mk (trimChars cap)

/-- The TagSet accumulated by the candidate loop of `parse_page`: for
each candidate, trim it, resolve it in the alias map, and on a hit OR
the resolved mask in (`insert_tag_mask`); misses contribute nothing.
(The `as u32` cast is the identity here: every stored alias value is a
`Tag::to_mask`, below `2^32`.) -/
def extractTags (body : List Char) : Nat :=
  (scanTags body).foldl
    (fun tags cap =>
      match aliasLookup (String.mk (trimChars cap)) with
      | some mask => TagSet.insert_tag_mask tags mask
      | none => tags) 0

/-- The literal `<title>` opener of `title_regex`. -/
def titleOpen : List Char := ['<', 't', 'i', 't', 'l', 'e', '>']

/-- One match attempt of `title_regex` (`<title>([^<]+)`) at the head of
the input. -/
def tryTitle (l : List Char) : Option (List Char) :=
  if titleOpen.isPrefixOf l then
    let cap := (l.drop titleOpen.length).takeWhile fun c => !(c == '<')
    if cap.isEmpty then none else some cap
  else none

/-- `title_regex.captures(page)`: leftmost match of `<title>([^<]+)`,
returning the capture. -/
def findTitle : List Char → Option (List Char)
  | [] => none
  | c :: rest =>
    match tryTitle (c :: rest) with
    | some cap => some cap
    | none => findTitle rest

/-- The literal pattern of `opening_text_regex`: `<text`. -/
def textOpen : List Char := ['<', 't', 'e', 'x', 't']

/-- `opening_text_regex.find(page)`, returning the suffix of the page
after the match end (`page_contents[m.end()..]`). -/
def findText : List Char → Option (List Char)
  | [] => none
  | c :: rest =>
    if textOpen.isPrefixOf (c :: rest) then some ((c :: rest).drop textOpen.length)
    else findText rest

/-- `PageInfo` from `src/bin/regenerate/parse.rs`; the `TagSet` is its
mask. -/
structure PageInfo where
  title : String
  tags : Nat
deriving DecidableEq, Repr

/-- `parse_page` from `src/bin/regenerate/parse.rs`.  No title is an
`Err`.  With a title but no `<text` marker, it succeeds with no record
and no tallies.  Otherwise it succeeds with the tallied tokens and a
`PageInfo` whose tags come from scanning the body substring after the
`<text` match. -/
def parse_page (page_contents : String) : Except String (List String × Option PageInfo) :=
  match findTitle page_contents.toList with
  | none => Except.error "Failed to find title for page"
  | some cap =>
    match findText page_contents.toList with
    | none => Except.ok ([], none)
    | some body =>
      Except.ok (talliedTokens body, some ⟨String.mk cap, extractTags body⟩)

/-- Substring test: `str::contains` with a literal pattern. -/
def containsSub (pat : List Char) : List Char → Bool
  | [] => pat.isEmpty
  | c :: t => pat.isPrefixOf (c :: t) || containsSub pat t

/-- `line.contains(marker)` as used by the main loop. -/
def lineContains (line pat : String) : Bool :=
  containsSub pat.toList line.toList

/-- `OPENING_PAGE` from `src/bin/regenerate/regenerate.rs`. -/
def OPENING_PAGE : String := "<page>"

/-- `CLOSING_PAGE` from `src/bin/regenerate/regenerate.rs`. -/
def CLOSING_PAGE : String := "</page>"

/-- The loop state of `main` in `src/bin/regenerate/regenerate.rs`. -/
structure LoopState where
  is_inside_page : Bool
  page : String
  pages : List PageInfo
  tag_counter : List String
deriving Repr

/-- The line loop of `main` (`src/bin/regenerate/regenerate.rs`,
lines 52-82): opening marker outside a page starts a page (buffer kept);
otherwise a closing-marker line hands the buffer to `parse_page` —
whose error aborts the whole loop via `?` — and clears it; any other
line is appended to the buffer with a newline. -/
def mainGo (st : LoopState) : List String → Except String LoopState
  | [] => Except.ok st
  | line :: rest =>
    if !st.is_inside_page && lineContains line OPENING_PAGE then
      mainGo { st with is_inside_page := true } rest
    else if lineContains line CLOSING_PAGE then
      match parse_page st.page with
      | Except.error e => Except.error e
      | Except.ok (toks, oinfo) =>
        mainGo
          { is_inside_page := false, page := "",
            pages := st.pages ++ oinfo.toList,
            tag_counter := st.tag_counter ++ toks } rest
    else
      mainGo { st with page := st.page ++ line ++ "\n" } rest

/-- Run the main line loop from the initial state and return the
collected `PageInfo`s. -/
def mainLoop (lines : List String) : Except String (List PageInfo) :=
  (mainGo ⟨false, "", [], []⟩ lines).map LoopState.pages

/-- The same line loop with the consumer abstracted away: it collects
the successive page buffers handed to `parse_page` (the PageStream of
the spec). -/
def streamGo (inside : Bool) (page : String) (handed : List String) :
    List String → List String
  | [] => handed
  | line :: rest =>
    if !inside && lineContains line OPENING_PAGE then
      streamGo true page handed rest
    else if lineContains line CLOSING_PAGE then
      streamGo false "" (handed ++ [page]) rest
    else
      streamGo inside (page ++ line ++ "\n") handed rest

/-- The page texts handed to the parser for a given line sequence. -/
def streamPages (lines : List String) : List String :=
  streamGo false "" [] lines

/-- A well-formed page block: an opening-marker line, the body lines,
a closing-marker line. -/
def mkPage (body : List String) : List String :=
  OPENING_PAGE :: body ++ [CLOSING_PAGE]

/-- The page buffer the loop accumulates for a span of lines: each line
followed by a newline. -/
def terminateLines (ls : List String) : String :=
  ls.foldl (fun acc l => acc ++ l ++ "\n") ""

/-- A line containing neither page marker. -/
def cleanLine (l : String) : Bool :=
  !lineContains l OPENING_PAGE && !lineContains l CLOSING_PAGE

/-- `FSTOptions` from `src/bin/regenerate/regenerate.rs`. -/
structure FSTOptions where
  flatten_unicode : Bool
  exclude_pages_which_have_only_nouns : Bool

/-- ASCII lowercasing of one character (`u8::to_ascii_lowercase`). -/
def asciiLowerChar (c : Char) : Char :=
  if 'A' ≤ c && c ≤ 'Z' then Char.ofNat (c.toNat + 32) else c

/-- `str::to_ascii_lowercase`. -/
def asciiLowercase (s : String) : String :=
  String.mk (s.toList.map asciiLowerChar)

/-- The exclusion mask built at the top of `build_fst_from_pages`:
`{Noun, ProperNoun}` when `exclude_pages_which_have_only_nouns` is on,
the empty set otherwise. -/
def exclusionMask (opts : FSTOptions) : Nat :=
  if opts.exclude_pages_which_have_only_nouns then
    TagSet.insert_tag (TagSet.insert_tag 0 Tag.Noun) Tag.ProperNoun
  else 0

/-- Title normalization in `build_fst_from_pages`:
`unidecode(title).to_ascii_lowercase()` when `flatten_unicode`, else
`title.to_lowercase()`.  The `unidecode` transliteration and Unicode
`to_lowercase` are external routines (out of the repository's core) and
are taken as parameters `u` and `low`. -/
def normTitle (u low : String → String) (opts : FSTOptions) (t : String) : String :=
  if opts.flatten_unicode then asciiLowercase (u t) else low t

/-- The `filter_map` step of `build_fst_from_pages`: drop a record iff
its tags minus the exclusion mask are empty; a kept record contributes
its normalized title and its original, unfiltered tags. -/
def keptPages (u low : String → String) (opts : FSTOptions)
    (pages : List PageInfo) : List (String × Nat) :=
  pages.filterMap fun info =>
    if TagSet.is_empty (TagSet.remove_tag_set info.tags (exclusionMask opts)) then none
    else some (normTitle u low opts info.title, info.tags)

/-- `acc.entry(title).or_default().extend(tag_set)` on an association
list: merge into the existing entry by TagSet union, or add a fresh
entry. -/
def updateAssoc : List (String × Nat) → String → Nat → List (String × Nat)
  | [], k, m => [(k, m)]
  | (k', m') :: t, k, m =>
    if k' = k then (k', TagSet.extend m' m) :: t
    else (k', m') :: updateAssoc t k m

/-- The `fold` step of `build_fst_from_pages`: group the kept records by
normalized title, merging tag sets by union.  (The source folds into a
`HashMap`; an association list carries the same key-value mapping.) -/
def groupByTitle (kvs : List (String × Nat)) : List (String × Nat) :=
  kvs.foldl (fun acc kv => updateAssoc acc kv.1 kv.2) []

/-- The full aggregation of `build_fst_from_pages` before insertion:
filter, normalize, group-merge, then sort by title
(`pages_sorted.sort_by(|a, b| a.0.cmp(&b.0))`). -/
def aggregatePages (u low : String → String) (opts : FSTOptions)
    (pages : List PageInfo) : List (String × Nat) :=
  sortByKey (groupByTitle (keptPages u low opts pages))

/-- Modelled from the spec: one insertion into the external
`fst::MapBuilder` (the automaton-map engine is not part of this
repository).  The spec's contract: keys must arrive in strictly
ascending byte order with no repeats; an out-of-order or duplicate key
is a construction error, otherwise the pair is appended to the ordered
map. -/
def fstInsert (entries : List (String × Nat)) (k : String) (v : Nat) :
    Except String (List (String × Nat)) :=
  match (entries.map Prod.fst).getLast? with
  | none => Except.ok (entries ++ [(k, v)])
  | some last =>
    if strLt last k then Except.ok (entries ++ [(k, v)])
    else Except.error "out-of-order or duplicate key"

/-- `TagsBuilder::insert_tag` from `src/tags.rs`: insert
`(key, tag.to_mask() as u64)`.  The source `unwrap`s the result
(a failure is a panic); the panic is modelled by the error value. -/
def TagsBuilder.insert_tag (b : List (String × Nat)) (key : String) (t : Tag) :
    Except String (List (String × Nat)) :=
  fstInsert b key t.to_mask

/-- `TagsBuilder::insert_tag_set` from `src/tags.rs`: insert
`(key, tag_set.to_mask() as u64)` and propagate the error. -/
def TagsBuilder.insert_tag_set (b : List (String × Nat)) (key : String) (ts : Nat) :
    Except String (List (String × Nat)) :=
  fstInsert b key ts

/-- `TagsBuilder::extend_iter` from `src/tags.rs`: insert each
`(key, tag_set.to_mask() as u64)` in order, propagating the first
error. -/
def TagsBuilder.extend_iter (b : List (String × Nat)) (l : List (String × Nat)) :
    Except String (List (String × Nat)) :=
  l.foldlM (fun acc kv => fstInsert acc kv.1 kv.2) b

/-- Modelled from the spec: `fst::Map::get` on the built artifact is an
exact-match, case-sensitive lookup in the ordered key-value map,
`none` for any key not present. -/
def fstGet (artifact : List (String × Nat)) (k : String) : Option Nat :=
  artifact.lookup k

/-- `TagsLookup::get` from `src/tags.rs`:
`self.0.get(key).map(|mask| TagSet::from_mask(mask as u32))`; the
`u64 → u32` cast is `% 2^32`. -/
def TagsLookup.get (artifact : List (String × Nat)) (key : String) : Option Nat :=
  (fstGet artifact key).map fun mask => TagSet.from_mask (mask % 2 ^ 32)

/-- `build_fst_from_pages` from `src/bin/regenerate/regenerate.rs`:
aggregate the parsed pages and feed the sorted result to the builder
via `extend_iter`. -/
def build_fst_from_pages (u low : String → String) (opts : FSTOptions)
    (pages : List PageInfo) : Except String (List (String × Nat)) :=
  TagsBuilder.extend_iter [] (aggregatePages u low opts pages)

/-- One match attempt of the candidate pattern as the spec describes it,
at the head of the input, with the recognized prefix forms supplied as a
parameter: two opening braces, optional whitespace, then a token
beginning with one of the prefixes and stopping at the first stop
character (non-empty). -/
def specTokenAt (pfxs : List (List Char)) : List Char → Option (List Char)
  | c1 :: c2 :: t =>
    if c1 = '\x7b' && c2 = '\x7b' then
      let t1 := t.dropWhile Char.isWhitespace
      match pfxs.find? (fun p => p.isPrefixOf t1) with
      | some p =>
        let tok := (t1.drop p.length).takeWhile fun c => !stopChar c
        if tok.isEmpty then none else some (p ++ tok)
      | none => none
    else none
  | _ => none

/-- The spec-side scan: try the pattern at every position of the body
and collect every occurrence's token. -/
def specScan (pfxs : List (List Char)) : List Char → List (List Char)
  | [] => []
  | c :: rest =>
    (match specTokenAt pfxs (c :: rest) with
     | some cap => [cap]
     | none => []) ++ specScan pfxs rest

/-- The prefix forms as claim C4 words them: the prefix-hyphen form
`en-` and the prefix+pipe+head+pipe form `en|head|`. -/
def claimedPfxs : List (List Char) :=
  [enPfx, ['e', 'n', '|', 'h', 'e', 'a', 'd', '|']]

/-- The prefix forms the source regex actually has: `en-` and
`head|en|`. -/
def sourcePfxs : List (List Char) := [enPfx, headPfx]

/-! ### Bit-level toolkit for the `TagSet::tags` iterator -/

theorem to_mask_eq (t : Tag) : Tag.to_mask t = 2 ^ (t.index + 1) := by
  cases t <;> decide

theorem index_le (t : Tag) : t.index ≤ 12 := by
  cases t <;> decide

theorem index_inj : ∀ t t' : Tag, t.index = t'.index → t = t' := by
  decide

theorem beq_eq_decide_eq (a b : Nat) : (a == b) = decide (a = b) := by
  by_cases h : a = b
  · subst h
    simp
  · simp [h]

theorem foldl_insert_testBit (l : List Tag) (acc : Nat) (i : Nat) :
    (l.foldl TagSet.insert_tag acc).testBit i
      = (acc.testBit i || l.any fun t => t.index + 1 == i) := by
  induction l generalizing acc with
  | nil => simp
  | cons t l ih =>
    simp only [List.foldl_cons, List.any_cons, ih, TagSet.insert_tag,
      Nat.testBit_lor, to_mask_eq, Nat.testBit_two_pow, beq_eq_decide_eq]
    cases h : acc.testBit i <;> simp [Bool.or_assoc]

theorem of_testBit (l : List Tag) (i : Nat) :
    (TagSet.of l).testBit i = l.any fun t => t.index + 1 == i := by
  simp [TagSet.of, foldl_insert_testBit]

/-- Masks whose set bits all lie in positions 1 through 13. -/
def goodMask (m : Nat) : Prop :=
  ∀ i, m.testBit i = true → 1 ≤ i ∧ i ≤ 13

theorem goodMask_zero : goodMask 0 := by
  intro i h
  simp at h

theorem goodMask_or {a b : Nat} (ha : goodMask a) (hb : goodMask b) :
    goodMask (a ||| b) := by
  intro i h
  rw [Nat.testBit_lor] at h
  rcases Bool.or_eq_true_iff.mp h with h' | h'
  · exact ha i h'
  · exact hb i h'

theorem goodMask_to_mask (t : Tag) : goodMask t.to_mask := by
  intro i h
  rw [to_mask_eq, Nat.testBit_two_pow] at h
  have := of_decide_eq_true h
  have := index_le t
  omega

theorem goodMask_of (l : List Tag) : goodMask (TagSet.of l) := by
  intro i h
  rw [of_testBit] at h
  rcases List.any_eq_true.mp h with ⟨t, _, ht⟩
  have ht' : t.index + 1 = i := by simpa using ht
  have := index_le t
  omega

theorem lt_two_pow_of_high_bits {m n : Nat}
    (h : ∀ i, n ≤ i → m.testBit i = false) : m < 2 ^ n := by
  have hm : m = m % 2 ^ n := by
    apply Nat.eq_of_testBit_eq
    intro i
    rw [Nat.testBit_mod_two_pow]
    by_cases hi : i < n
    · simp [hi]
    · simp [hi, h i (Nat.le_of_not_lt hi)]
  rw [hm]
  exact Nat.mod_lt _ (Nat.pos_pow_of_pos n (by omega))

theorem goodMask_lt {m : Nat} (h : goodMask m) : m < 2 ^ 14 := by
  apply lt_two_pow_of_high_bits
  intro i hi
  by_contra hbit
  have := h i (eq_true_of_ne_false hbit)
  omega

theorem goodMask_even {m : Nat} (h : goodMask m) : m % 2 = 0 := by
  by_contra hne
  have h2 : m % 2 = 1 := by omega
  have : m.testBit 0 = true := by
    rw [Nat.testBit_zero]
    simp [h2]
  have := h 0 this
  omega

theorem tzFuel_low_bits : ∀ (fuel m i : Nat), i < tzFuel fuel m → m.testBit i = false := by
  intro fuel
  induction fuel with
  | zero => intro m i h; simp [tzFuel] at h
  | succ fuel ih =>
    intro m i h
    rw [tzFuel] at h
    by_cases hodd : m % 2 = 1
    · simp [hodd] at h
    · simp only [hodd, if_false] at h
      cases i with
      | zero =>
        rw [Nat.testBit_zero]
        simp [hodd]
      | succ i =>
        rw [Nat.testBit_succ]
        exact ih (m / 2) i (by omega)

theorem bitLenFuel_le : ∀ (fuel n m : Nat), m < 2 ^ n → n ≤ fuel → bitLenFuel fuel m ≤ n := by
  intro fuel
  induction fuel with
  | zero => intro n m _ _; simp [bitLenFuel]
  | succ fuel ih =>
    intro n m hm hn
    rw [bitLenFuel]
    by_cases h0 : m = 0
    · simp [h0]
    · simp only [h0, if_false]
      cases n with
      | zero => simp at hm; omega
      | succ n =>
        have h2 : m / 2 < 2 ^ n := by
          rw [pow_succ] at hm
          omega
        have := ih n (m / 2) h2 (by omega)
        omega

theorem testBit_lt_bitLenFuel : ∀ (fuel m i : Nat), m < 2 ^ fuel →
    m.testBit i = true → i < bitLenFuel fuel m := by
  intro fuel
  induction fuel with
  | zero =>
    intro m i hm hbit
    have : m = 0 := by simpa using hm
    subst this
    simp at hbit
  | succ fuel ih =>
    intro m i hm hbit
    rw [bitLenFuel]
    by_cases h0 : m = 0
    · subst h0; simp at hbit
    · simp only [h0, if_false]
      cases i with
      | zero => omega
      | succ i =>
        rw [Nat.testBit_succ] at hbit
        have h2 : m / 2 < 2 ^ fuel := by
          rw [pow_succ] at hm
          omega
        have := ih (m / 2) i h2 hbit
        omega

theorem filter_drop_range (p : Nat → Bool) (n k : Nat)
    (h : ∀ i, i < k → p i = false) :
    ((List.range n).drop k).filter p = (List.range n).filter p := by
  conv_rhs => rw [← List.take_append_drop k (List.range n)]
  rw [List.filter_append, List.take_range]
  have hnil : (List.range (min k n)).filter p = [] := by
    rw [List.filter_eq_nil_iff]
    intro a ha
    rw [List.mem_range] at ha
    simp [h a (lt_of_lt_of_le ha (min_le_left k n))]
  rw [hnil, List.nil_append]

theorem filter_range_of_bound (p : Nat → Bool) {n n' : Nat} (hle : n' ≤ n)
    (h : ∀ i, p i = true → i < n') :
    (List.range n).filter p = (List.range n').filter p := by
  obtain ⟨d, rfl⟩ : ∃ d, n = n' + d := ⟨n - n', by omega⟩
  rw [List.range_add, List.filter_append]
  have hnil : ((List.range d).map fun x => n' + x).filter p = [] := by
    rw [List.filter_eq_nil_iff]
    intro a ha
    rw [List.mem_map] at ha
    obtain ⟨x, _, rfl⟩ := ha
    intro hp
    have := h _ hp
    omega
  rw [hnil, List.append_nil]

theorem tagIndices_eq {m : Nat} (hm : m < 2 ^ 14) :
    tagIndices m = (List.range 14).filter fun i => m.testBit i := by
  unfold tagIndices bitLen tz32
  rw [filter_drop_range _ _ _ fun i hi => tzFuel_low_bits 32 m i hi]
  exact (filter_range_of_bound _ (bitLenFuel_le 32 14 m hm (by omega))
    fun i hp => testBit_lt_bitLenFuel 32 m i (lt_trans hm (by norm_num)) hp).symm

theorem from_u32_index (t : Tag) : Tag.from_u32 (t.index + 1) = some t := by
  cases t <;> rfl

theorem from_u32_none {i : Nat} (hge : 14 ≤ i) : Tag.from_u32 i = none := by
  unfold Tag.from_u32
  rw [if_neg (show ¬ i = 1 by omega), if_neg (show ¬ i = 2 by omega),
    if_neg (show ¬ i = 3 by omega), if_neg (show ¬ i = 4 by omega),
    if_neg (show ¬ i = 5 by omega), if_neg (show ¬ i = 6 by omega),
    if_neg (show ¬ i = 7 by omega), if_neg (show ¬ i = 8 by omega),
    if_neg (show ¬ i = 9 by omega), if_neg (show ¬ i = 10 by omega),
    if_neg (show ¬ i = 11 by omega), if_neg (show ¬ i = 12 by omega),
    if_neg (show ¬ i = 13 by omega)]

theorem from_u32_some {i : Nat} {t : Tag} (h : Tag.from_u32 i = some t) :
    i = t.index + 1 := by
  have hlt : i < 14 := by
    by_contra hge
    rw [from_u32_none (by omega)] at h
    exact Option.noConfusion h
  have key : ∀ i' < 14, ∀ t' : Tag, Tag.from_u32 i' = some t' → i' = t'.index + 1 := by
    decide
  exact key i hlt t h

theorem filter_map_lockstep (p : Nat → Bool) (q : Tag → Bool)
    (is : List Nat) (ts : List Tag)
    (hf : List.Forall₂ (fun i t => Tag.from_u32 i = some t) is ts)
    (hpq : ∀ i t, Tag.from_u32 i = some t → p i = q t) :
    (is.filter p).map Tag.from_u32 = (ts.filter q).map some := by
  induction hf with
  | nil => simp
  | @cons i t is ts h1 _ ih =>
    rw [List.filter_cons, List.filter_cons, hpq i t h1]
    cases hq : q t
    · simpa using ih
    · simp only [if_true]
      rw [List.map_cons, List.map_cons, h1]
      rw [ih]

theorem corr_forall₂ :
    List.Forall₂ (fun i t => Tag.from_u32 i = some t)
      ((List.range 13).map Nat.succ) allTags := by
  have h : (List.range 13).map Nat.succ
      = [1, 2, 3, 4, 5, 6, 7, 8, 9, 10, 11, 12, 13] := by rfl
  rw [h]
  unfold allTags
  repeat constructor

theorem any_index_eq (l : List Tag) (t : Tag) :
    (l.any fun u => u.index + 1 == t.index + 1) = decide (t ∈ l) := by
  induction l with
  | nil => simp
  | cons hd tl ih =>
    simp only [List.any_cons, ih]
    by_cases h : t = hd
    · subst h
      simp
    · have hne : hd.index + 1 ≠ t.index + 1 := fun hc =>
        h ((index_inj hd t (by omega)).symm)
      simp [beq_eq_decide_eq, hne, h]

theorem tags_eq_filter {m : Nat} (hm : m < 2 ^ 14) (h0 : m.testBit 0 = false) :
    TagSet.tags m
      = (((List.range 13).map Nat.succ).filter fun i => m.testBit i).map Tag.from_u32 := by
  unfold TagSet.tags
  rw [tagIndices_eq hm]
  rw [show (14 : Nat) = 13 + 1 from rfl, List.range_succ_eq_map, List.filter_cons]
  simp [h0]

theorem from_u32_isSome : ∀ i < 14, 1 ≤ i → (Tag.from_u32 i).isSome = true := by
  decide

/-! ### Association lists: sorting, lookup, grouping -/

theorem mem_insertSorted (le : α → α → Bool) (x a : α) (l : List α) :
    x ∈ insertSorted le a l ↔ x = a ∨ x ∈ l := by
  induction l with
  | nil => simp [insertSorted]
  | cons y t ih =>
    rw [insertSorted]
    cases hle : le a y <;> simp [hle, List.mem_cons, ih] <;> try tauto

theorem mem_sortByKey (x : String × β) (l : List (String × β)) :
    x ∈ sortByKey l ↔ x ∈ l := by
  unfold sortByKey
  induction l with
  | nil => simp
  | cons y t ih =>
    rw [List.foldr_cons, mem_insertSorted]
    simp [ih]

theorem lookup_mem_unique :
    ∀ (l : List (String × Nat)) (k : String) (v : Nat),
      (l.map Prod.fst).Nodup → (k, v) ∈ l → l.lookup k = some v := by
  intro l
  induction l with
  | nil => intro k v _ h; simp at h
  | cons p t ih =>
    intro k v hnd hmem
    obtain ⟨k1, v1⟩ := p
    rw [List.map_cons, List.nodup_cons] at hnd
    rcases List.mem_cons.mp hmem with heq | hmem'
    · obtain ⟨rfl, rfl⟩ := Prod.mk.injEq .. ▸ heq
      simp [List.lookup]
    · have hk : (k == k1) = false := by
        rw [beq_eq_false_iff_ne]
        intro h
        subst h
        exact hnd.1 (List.mem_map.mpr ⟨(k, v), hmem', rfl⟩)
      simp only [List.lookup, hk]
      exact ih k v hnd.2 hmem'

theorem lookup_mem : ∀ (l : List (String × Nat)) (k : String) (v : Nat),
    l.lookup k = some v → (k, v) ∈ l := by
  intro l
  induction l with
  | nil => intro k v h; simp [List.lookup] at h
  | cons p t ih =>
    intro k v h
    obtain ⟨k1, v1⟩ := p
    by_cases hk : k = k1
    · have hb : (k == k1) = true := beq_iff_eq.mpr hk
      simp only [List.lookup, hb] at h
      obtain rfl := Option.some.inj h
      subst hk
      exact List.mem_cons_self _ _
    · have hb : (k == k1) = false := beq_eq_false_iff_ne.mpr hk
      simp only [List.lookup, hb] at h
      exact List.mem_cons_of_mem _ (ih k v h)

theorem lookup_not_mem : ∀ (l : List (String × Nat)) (k : String),
    k ∉ l.map Prod.fst → l.lookup k = none := by
  intro l
  induction l with
  | nil => intro k _; rfl
  | cons p t ih =>
    intro k h
    obtain ⟨k1, v1⟩ := p
    rw [List.map_cons, List.mem_cons] at h
    push_neg at h
    have hb : (k == k1) = false := beq_eq_false_iff_ne.mpr h.1
    simp only [List.lookup, hb]
    exact ih k h.2

/-- The union of the values of all entries of `kvs` whose key is `k`
(in entry order). -/
def mergedValue (kvs : List (String × Nat)) (k : String) : Nat :=
  ((kvs.filter fun kv => kv.1 == k).map Prod.snd).foldl TagSet.extend 0

theorem extend_zero (v : Nat) : TagSet.extend 0 v = v := by
  simp [TagSet.extend]

theorem lookup_updateAssoc (acc : List (String × Nat)) (k' : String) (v' : Nat)
    (k : String) :
    (updateAssoc acc k' v').lookup k
      = if k = k' then
          (match acc.lookup k with
           | some v => some (TagSet.extend v v')
           | none => some v')
        else acc.lookup k := by
  induction acc with
  | nil =>
    by_cases hk : k = k'
    · have h1 : (k == k') = true := beq_iff_eq.mpr hk
      simp [updateAssoc, List.lookup, h1, hk]
    · have h1 : (k == k') = false := beq_eq_false_iff_ne.mpr hk
      simp [updateAssoc, List.lookup, h1, hk]
  | cons p t ih =>
    obtain ⟨a, b⟩ := p
    rw [updateAssoc]
    by_cases hak : a = k'
    · rw [if_pos hak]
      by_cases hk : k = a
      · have h1 : (k == a) = true := beq_iff_eq.mpr hk
        have h2 : k = k' := hk.trans hak
        simp only [List.lookup, h1, if_pos h2]
      · have h1 : (k == a) = false := beq_eq_false_iff_ne.mpr hk
        have h2 : ¬ k = k' := fun h => hk (h.trans hak.symm)
        simp only [List.lookup, h1, if_neg h2]
    · rw [if_neg hak]
      by_cases hk : k = a
      · have h1 : (k == a) = true := beq_iff_eq.mpr hk
        have h2 : ¬ k = k' := fun h => hak (hk.symm.trans h)
        simp only [List.lookup, h1, if_neg h2]
      · have h1 : (k == a) = false := beq_eq_false_iff_ne.mpr hk
        simp only [List.lookup, h1, ih]

theorem lookup_group_fold :
    ∀ (kvs acc : List (String × Nat)) (k : String),
      ((kvs.foldl (fun a kv => updateAssoc a kv.1 kv.2) acc).lookup k)
        = match acc.lookup k with
          | some v =>
            some (((kvs.filter fun kv => kv.1 == k).map Prod.snd).foldl TagSet.extend v)
          | none =>
            if kvs.any fun kv => kv.1 == k then some (mergedValue kvs k) else none := by
  intro kvs
  induction kvs with
  | nil =>
    intro acc k
    cases h : acc.lookup k <;> simp [h, mergedValue]
  | cons p rest ih =>
    intro acc k
    obtain ⟨k1, v1⟩ := p
    rw [List.foldl_cons, ih, lookup_updateAssoc]
    by_cases hk : k = k1
    · have h1 : (k1 == k) = true := beq_iff_eq.mpr hk.symm
      rw [if_pos hk]
      cases hacc : acc.lookup k with
      | some v =>
        simp only [List.filter_cons, h1, if_true, List.map_cons, List.foldl_cons]
      | none =>
        simp only [List.any_cons, h1, Bool.true_or, if_true, mergedValue,
          List.filter_cons, List.map_cons, List.foldl_cons, extend_zero]
    · have h1 : (k1 == k) = false := beq_eq_false_iff_ne.mpr fun h => hk h.symm
      rw [if_neg hk]
      cases hacc : acc.lookup k with
      | some v => simp [List.filter_cons, h1]
      | none =>
        simp only [List.any_cons, List.filter_cons, h1, Bool.false_or, mergedValue]
        simp

theorem lookup_groupByTitle (kvs : List (String × Nat)) (k : String) :
    (groupByTitle kvs).lookup k
      = if kvs.any fun kv => kv.1 == k then some (mergedValue kvs k) else none := by
  unfold groupByTitle
  rw [lookup_group_fold]
  rfl

theorem keys_updateAssoc (acc : List (String × Nat)) (k : String) (m : Nat) :
    (updateAssoc acc k m).map Prod.fst
      = if k ∈ acc.map Prod.fst then acc.map Prod.fst
        else acc.map Prod.fst ++ [k] := by
  induction acc with
  | nil => simp [updateAssoc]
  | cons p t ih =>
    obtain ⟨a, b⟩ := p
    rw [updateAssoc]
    by_cases hak : a = k
    · rw [if_pos hak]
      simp [hak]
    · rw [if_neg hak]
      simp only [List.map_cons, List.mem_cons, ih]
      by_cases hm : k ∈ t.map Prod.fst
      · simp [hm]
      · have hka : ¬ k = a := fun h => hak h.symm
        simp [hm, hka]

theorem nodup_keys_group_fold :
    ∀ (kvs acc : List (String × Nat)),
      (acc.map Prod.fst).Nodup →
      ((kvs.foldl (fun a kv => updateAssoc a kv.1 kv.2) acc).map Prod.fst).Nodup := by
  intro kvs
  induction kvs with
  | nil => intro acc h; exact h
  | cons p rest ih =>
    intro acc h
    rw [List.foldl_cons]
    apply ih
    rw [keys_updateAssoc]
    by_cases hm : p.1 ∈ acc.map Prod.fst
    · simp [hm, h]
    · simp only [hm, if_false]
      rw [List.nodup_append]
      exact ⟨h, List.nodup_singleton _, by simpa using hm⟩

theorem nodup_keys_groupByTitle (kvs : List (String × Nat)) :
    ((groupByTitle kvs).map Prod.fst).Nodup :=
  nodup_keys_group_fold kvs [] (by simp)

theorem aliasLookup_to_mask {s : String} {mask : Nat}
    (h : aliasLookup s = some mask) : ∃ t, mask = Tag.to_mask t := by
  unfold aliasLookup at h
  cases hl : sortedAliasPairs.lookup s with
  | none => rw [hl] at h; simp at h
  | some t =>
    rw [hl] at h
    refine ⟨t, ?_⟩
    simp only [Option.map] at h
    exact (Option.some.inj h).symm

theorem goodMask_extract_fold (caps : List (List Char)) :
    ∀ acc, goodMask acc →
      goodMask (caps.foldl
        (fun tags cap =>
          match aliasLookup (String.mk (trimChars cap)) with
          | some mask => TagSet.insert_tag_mask tags mask
          | none => tags) acc) := by
  induction caps with
  | nil => intro acc h; exact h
  | cons c cs ih =>
    intro acc h
    rw [List.foldl_cons]
    apply ih
    cases hl : aliasLookup (String.mk (trimChars c)) with
    | none => simpa [hl] using h
    | some mask =>
      simp only [hl]
      obtain ⟨t, rfl⟩ := aliasLookup_to_mask hl
      exact goodMask_or h (goodMask_to_mask t)

theorem goodMask_extract (body : List Char) : goodMask (extractTags body) :=
  goodMask_extract_fold (scanTags body) 0 goodMask_zero

theorem goodMask_values_updateAssoc (acc : List (String × Nat)) (k : String)
    (m : Nat) (hacc : ∀ e ∈ acc, goodMask e.2) (hm : goodMask m) :
    ∀ e ∈ updateAssoc acc k m, goodMask e.2 := by
  induction acc with
  | nil =>
    intro e he
    simp only [updateAssoc, List.mem_singleton] at he
    subst he
    exact hm
  | cons p t ih =>
    intro e he
    obtain ⟨a, b⟩ := p
    rw [updateAssoc] at he
    by_cases hak : a = k
    · rw [if_pos hak] at he
      rcases List.mem_cons.mp he with rfl | ht
      · exact goodMask_or (hacc (a, b) (List.mem_cons_self _ _)) hm
      · exact hacc e (List.mem_cons_of_mem _ ht)
    · rw [if_neg hak] at he
      rcases List.mem_cons.mp he with rfl | ht
      · exact hacc (a, b) (List.mem_cons_self _ _)
      · exact ih (fun e' he' => hacc e' (List.mem_cons_of_mem _ he')) e ht

theorem goodMask_values_group_fold :
    ∀ (kvs acc : List (String × Nat)),
      (∀ e ∈ acc, goodMask e.2) → (∀ e ∈ kvs, goodMask e.2) →
      ∀ e ∈ kvs.foldl (fun a kv => updateAssoc a kv.1 kv.2) acc, goodMask e.2 := by
  intro kvs
  induction kvs with
  | nil => intro acc hacc _ e he; exact hacc e he
  | cons p rest ih =>
    intro acc hacc hall e he
    rw [List.foldl_cons] at he
    exact ih _
      (goodMask_values_updateAssoc acc p.1 p.2 hacc (hall p (List.mem_cons_self _ _)))
      (fun e' he' => hall e' (List.mem_cons_of_mem _ he')) e he

theorem goodMask_values_aggregate (u low : String → String) (opts : FSTOptions)
    (pages : List PageInfo) (hp : ∀ p ∈ pages, goodMask p.tags) :
    ∀ e ∈ aggregatePages u low opts pages, goodMask e.2 := by
  intro e he
  rw [aggregatePages, mem_sortByKey] at he
  refine goodMask_values_group_fold _ [] (by simp) ?_ e he
  intro e' he'
  rw [keptPages, List.mem_filterMap] at he'
  obtain ⟨info, hinfo, hsome⟩ := he'
  by_cases hdrop :
      TagSet.is_empty (TagSet.remove_tag_set info.tags (exclusionMask opts)) = true
  · rw [if_pos hdrop] at hsome
    exact Option.noConfusion hsome
  · rw [if_neg hdrop] at hsome
    obtain rfl := Option.some.inj hsome
    exact hp info hinfo

/-! ### The byte order and the builder contract -/

theorem lexLt_irrefl : ∀ a : List Char, lexLt a a = false := by
  intro a
  induction a with
  | nil => rfl
  | cons x xs ih =>
    rw [lexLt]
    simp [ih]

theorem strLt_irrefl (a : String) : strLt a a = false :=
  lexLt_irrefl a.toList

theorem lexLt_trans :
    ∀ a b c : List Char, lexLt a b = true → lexLt b c = true → lexLt a c = true := by
  intro a
  induction a with
  | nil =>
    intro b c hab hbc
    cases b with
    | nil => simp [lexLt] at hab
    | cons y ys =>
      cases c with
      | nil => simp [lexLt] at hbc
      | cons z zs => simp [lexLt]
  | cons x xs ih =>
    intro b c hab hbc
    cases b with
    | nil => simp [lexLt] at hab
    | cons y ys =>
      cases c with
      | nil => simp [lexLt] at hbc
      | cons z zs =>
        rw [lexLt] at hab hbc ⊢
        by_cases h1 : x.toNat < y.toNat
        · by_cases h2 : y.toNat < z.toNat
          · simp [show x.toNat < z.toNat by omega]
          · by_cases h3 : z.toNat < y.toNat
            · simp [h2, h3] at hbc
            · simp [show x.toNat < z.toNat by omega]
        · by_cases h4 : y.toNat < x.toNat
          · simp [h1, h4] at hab
          · by_cases h2 : y.toNat < z.toNat
            · simp [show x.toNat < z.toNat by omega]
            · by_cases h3 : z.toNat < y.toNat
              · simp [h2, h3] at hbc
              · have hxz : ¬ x.toNat < z.toNat := by omega
                have hzx : ¬ z.toNat < x.toNat := by omega
                rw [if_neg h1, if_neg h4] at hab
                rw [if_neg h2, if_neg h3] at hbc
                rw [if_neg hxz, if_neg hzx]
                exact ih ys zs hab hbc

theorem strLt_trans {a b c : String} (h1 : strLt a b = true) (h2 : strLt b c = true) :
    strLt a c = true :=
  lexLt_trans a.toList b.toList c.toList h1 h2

theorem strLt_ne {a b : String} (h : strLt a b = true) : a ≠ b := by
  intro he
  subst he
  rw [strLt_irrefl] at h
  exact Bool.noConfusion h


theorem chain_rel_all :
    ∀ (t : List (String × Nat)) (a : String × Nat),
      List.Chain (fun p q => strLt p.1 q.1 = true) a t →
      ∀ b ∈ t, strLt a.1 b.1 = true := by
  intro t
  induction t with
  | nil => intro a _ b hb; simp at hb
  | cons x xs ih =>
    intro a hch b hb
    rw [List.chain_cons] at hch
    rcases List.mem_cons.mp hb with rfl | hb'
    · exact hch.1
    · exact strLt_trans hch.1 (ih x hch.2 b hb')

theorem chain'_pairwise :
    ∀ l : List (String × Nat),
      List.Chain' (fun p q => strLt p.1 q.1 = true) l →
      List.Pairwise (fun p q => strLt p.1 q.1 = true) l := by
  intro l
  induction l with
  | nil => intro _; exact List.Pairwise.nil
  | cons a t ih =>
    intro h
    have hch : List.Chain (fun p q => strLt p.1 q.1 = true) a t := h
    have ht : List.Chain' (fun p q => strLt p.1 q.1 = true) t :=
      (List.chain'_cons'.mp h).2
    exact List.Pairwise.cons (chain_rel_all t a hch) (ih ht)

theorem nodup_keys_of_chain' (l : List (String × Nat))
    (h : List.Chain' (fun p q => strLt p.1 q.1 = true) l) :
    (l.map Prod.fst).Nodup := by
  have hp := chain'_pairwise l h
  rw [List.Nodup, List.pairwise_map]
  exact hp.imp fun hr => strLt_ne hr

theorem fstInsert_ok_shape {b : List (String × Nat)} {k : String} {v : Nat}
    {b' : List (String × Nat)} (h : fstInsert b k v = Except.ok b') :
    b' = b ++ [(k, v)] := by
  unfold fstInsert at h
  cases hl : (b.map Prod.fst).getLast? with
  | none =>
    rw [hl] at h
    dsimp only at h
    exact (Except.ok.inj h).symm
  | some last =>
    rw [hl] at h
    dsimp only at h
    by_cases hlt : strLt last k = true
    · rw [if_pos hlt] at h
      exact (Except.ok.inj h).symm
    · rw [if_neg hlt] at h
      exact Except.noConfusion h

theorem extend_iter_ok :
    ∀ (l b : List (String × Nat)),
      List.Chain' (fun a c => strLt a c = true) (b.map Prod.fst ++ l.map Prod.fst) →
      TagsBuilder.extend_iter b l = Except.ok (b ++ l) := by
  intro l
  induction l with
  | nil =>
    intro b _
    rw [TagsBuilder.extend_iter, List.foldlM_nil, List.append_nil]
    rfl
  | cons p rest ih =>
    intro b hch
    obtain ⟨k, v⟩ := p
    have hins : fstInsert b k v = Except.ok (b ++ [(k, v)]) := by
      unfold fstInsert
      cases hl : (b.map Prod.fst).getLast? with
      | none => rfl
      | some last =>
        have hrel : strLt last k = true := by
          rw [List.chain'_append] at hch
          exact hch.2.2 last hl k (by simp)
        dsimp only
        rw [if_pos hrel]
    rw [TagsBuilder.extend_iter, List.foldlM_cons, hins]
    have hch' : List.Chain' (fun a c => strLt a c = true)
        ((b ++ [(k, v)]).map Prod.fst ++ rest.map Prod.fst) := by
      simpa [List.map_append, List.append_assoc] using hch
    have := ih (b ++ [(k, v)]) hch'
    rw [TagsBuilder.extend_iter] at this
    simpa [List.append_assoc] using this

theorem extend_ok_chain :
    ∀ (l b res : List (String × Nat)),
      TagsBuilder.extend_iter b l = Except.ok res →
      List.Chain' (fun a c => strLt a c = true)
        ((b.map Prod.fst).getLast?.toList ++ l.map Prod.fst) := by
  intro l
  induction l with
  | nil =>
    intro b res _
    rw [List.map_nil, List.append_nil]
    cases (b.map Prod.fst).getLast? <;> simp
  | cons p rest ih =>
    intro b res hok
    obtain ⟨k, v⟩ := p
    rw [TagsBuilder.extend_iter, List.foldlM_cons] at hok
    cases hins : fstInsert b k v with
    | error e =>
      rw [hins] at hok
      simp only [Bind.bind, Except.bind] at hok
      exact Except.noConfusion hok
    | ok b1 =>
      rw [hins] at hok
      have hb1 : b1 = b ++ [(k, v)] := fstInsert_ok_shape hins
      have hok' : TagsBuilder.extend_iter b1 rest = Except.ok res := by
        rw [TagsBuilder.extend_iter]
        exact hok
      have htail := ih b1 res hok'
      have hlast : (b1.map Prod.fst).getLast? = some k := by
        subst hb1
        simp [List.getLast?_append]
      rw [hlast] at htail
      cases hl : (b.map Prod.fst).getLast? with
      | none => simpa using htail
      | some last =>
        have hrel : strLt last k = true := by
          unfold fstInsert at hins
          rw [hl] at hins
          dsimp only at hins
          by_cases hlt : strLt last k = true
          · exact hlt
          · rw [if_neg hlt] at hins
            exact Except.noConfusion hins
        simp only [Option.toList, List.cons_append, List.nil_append]
        rw [List.chain'_cons'] 
        refine ⟨?_, by simpa using htail⟩
        intro y hy
        simp at hy
        subst hy
        exact hrel

/-! ### The main line loop and the page stream -/

theorem open_marker_facts :
    lineContains OPENING_PAGE OPENING_PAGE = true
    ∧ lineContains OPENING_PAGE CLOSING_PAGE = false
    ∧ lineContains CLOSING_PAGE CLOSING_PAGE = true
    ∧ lineContains CLOSING_PAGE OPENING_PAGE = false := by
  decide

theorem streamGo_inside (tail : List String) :
    ∀ (buf : String) (handed : List String),
      (∀ l ∈ tail, cleanLine l = true) →
      streamGo true buf handed tail = handed := by
  induction tail with
  | nil => intro buf handed _; rfl
  | cons l rest ih =>
    intro buf handed hc
    have hl := hc l (List.mem_cons_self _ _)
    rw [cleanLine] at hl
    have hop : lineContains l OPENING_PAGE = false := by
      cases h : lineContains l OPENING_PAGE <;> simp [h] at hl ⊢
    have hcl : lineContains l CLOSING_PAGE = false := by
      cases h : lineContains l CLOSING_PAGE <;> simp [h] at hl ⊢
    rw [streamGo]
    simp only [hop, hcl, Bool.and_false, Bool.false_and, Bool.not_true, if_false,
      Bool.false_eq_true, if_neg (by simp : ¬ (false = true))]
    exact ih _ handed fun l' hl' => hc l' (List.mem_cons_of_mem _ hl')

theorem clean_split {l : String} (h : cleanLine l = true) :
    lineContains l OPENING_PAGE = false ∧ lineContains l CLOSING_PAGE = false := by
  rw [cleanLine] at h
  constructor
  · cases hop : lineContains l OPENING_PAGE
    · rfl
    · rw [hop] at h; simp at h
  · cases hcl : lineContains l CLOSING_PAGE
    · rfl
    · rw [hcl] at h; simp at h

theorem streamGo_body (b : List String) :
    ∀ (buf : String) (handed : List String) (rest : List String),
      (∀ l ∈ b, cleanLine l = true) →
      streamGo true buf handed (b ++ CLOSING_PAGE :: rest)
        = streamGo false "" (handed ++ [b.foldl (fun acc l => acc ++ l ++ "\n") buf]) rest := by
  induction b with
  | nil =>
    intro buf handed rest _
    rw [List.nil_append, streamGo]
    simp [open_marker_facts.2.2.1]
  | cons l b' ih =>
    intro buf handed rest hc
    obtain ⟨hop, hcl⟩ := clean_split (hc l (List.mem_cons_self _ _))
    rw [List.cons_append, streamGo]
    simp only [hop, hcl, Bool.and_false, if_false, Bool.false_eq_true,
      if_neg (by simp : ¬ (false = true))]
    rw [List.foldl_cons]
    exact ih _ handed rest fun l' hl' => hc l' (List.mem_cons_of_mem _ hl')

theorem streamGo_cons (inside : Bool) (page : String) (handed : List String)
    (line : String) (rest : List String) :
    streamGo inside page handed (line :: rest)
      = if !inside && lineContains line OPENING_PAGE then
          streamGo true page handed rest
        else if lineContains line CLOSING_PAGE then
          streamGo false "" (handed ++ [page]) rest
        else streamGo inside (page ++ line ++ "\n") handed rest := rfl

theorem streamGo_page (b : List String) (buf : String) (handed : List String)
    (rest : List String) (hc : ∀ l ∈ b, cleanLine l = true) :
    streamGo false buf handed (mkPage b ++ rest)
      = streamGo false ""
          (handed ++ [b.foldl (fun acc l => acc ++ l ++ "\n") buf]) rest := by
  rw [show mkPage b ++ rest = OPENING_PAGE :: ((b ++ [CLOSING_PAGE]) ++ rest) from rfl,
    streamGo_cons]
  rw [if_pos (by simp [open_marker_facts.1])]
  rw [List.append_assoc]
  exact streamGo_body b buf handed rest hc

theorem streamGo_run_closed (bodies : List (List String)) :
    ∀ handed : List String,
      (∀ b ∈ bodies, ∀ l ∈ b, cleanLine l = true) →
      streamGo false "" handed (bodies.map mkPage).flatten
        = handed ++ bodies.map terminateLines := by
  induction bodies with
  | nil =>
    intro handed _
    simp [streamGo]
  | cons b bodies ih =>
    intro handed hb
    rw [List.map_cons, List.flatten_cons]
    rw [streamGo_page b "" handed _ (hb b (List.mem_cons_self _ _))]
    rw [ih _ fun b' hb' => hb b' (List.mem_cons_of_mem _ hb')]
    simp [terminateLines, List.append_assoc]

theorem streamGo_run (bodies : List (List String)) :
    ∀ (handed : List String) (tail : List String),
      (∀ b ∈ bodies, ∀ l ∈ b, cleanLine l = true) →
      (∀ l ∈ tail, cleanLine l = true) →
      streamGo false "" handed ((bodies.map mkPage).flatten ++ (OPENING_PAGE :: tail))
        = handed ++ bodies.map terminateLines := by
  induction bodies with
  | nil =>
    intro handed tail _ ht
    rw [List.map_nil, List.flatten_nil, List.nil_append, streamGo_cons]
    rw [if_pos (by simp [open_marker_facts.1])]
    rw [streamGo_inside tail "" handed ht]
    simp
  | cons b bodies ih =>
    intro handed tail hb ht
    rw [List.map_cons, List.flatten_cons, List.append_assoc]
    rw [streamGo_page b "" handed _ (hb b (List.mem_cons_self _ _))]
    rw [ih _ tail (fun b' hb' => hb b' (List.mem_cons_of_mem _ hb')) ht]
    simp [terminateLines, List.append_assoc]

theorem count_opens (bodies : List (List String)) (tail : List String)
    (hb : ∀ b ∈ bodies, ∀ l ∈ b, cleanLine l = true)
    (ht : ∀ l ∈ tail, cleanLine l = true) :
    (((bodies.map mkPage).flatten ++ (OPENING_PAGE :: tail)).filter
        fun l => lineContains l OPENING_PAGE).length
      = bodies.length + 1 := by
  rw [List.filter_append, List.length_append]
  have h1 : ∀ (bs : List (List String)), (∀ b ∈ bs, ∀ l ∈ b, cleanLine l = true) →
      ((bs.map mkPage).flatten.filter fun l => lineContains l OPENING_PAGE).length
        = bs.length := by
    intro bs
    induction bs with
    | nil => intro _; rfl
    | cons b bs ih =>
      intro hbs
      rw [List.map_cons, List.flatten_cons, List.filter_append, List.length_append,
        ih (fun b' hb' => hbs b' (List.mem_cons_of_mem _ hb'))]
      have hbody : (b.filter fun l => lineContains l OPENING_PAGE) = [] := by
        rw [List.filter_eq_nil_iff]
        intro l hl
        rw [(clean_split (hbs b (List.mem_cons_self _ _) l hl)).1]
        simp
      rw [mkPage]
      simp only [List.filter_cons, List.filter_append, hbody,
        open_marker_facts.1, open_marker_facts.2.2.2]
      simp [List.length_cons]
      omega
  rw [h1 bodies hb]
  have h2 : ((OPENING_PAGE :: tail).filter fun l => lineContains l OPENING_PAGE).length
      = 1 := by
    simp only [List.filter_cons]
    have htail : (tail.filter fun l => lineContains l OPENING_PAGE) = [] := by
      rw [List.filter_eq_nil_iff]
      intro l hl
      rw [(clean_split (ht l hl)).1]
      simp
    simp [open_marker_facts.1, htail]
  rw [h2]

theorem mainGo_cons (st : LoopState) (line : String) (rest : List String) :
    mainGo st (line :: rest)
      = if !st.is_inside_page && lineContains line OPENING_PAGE then
          mainGo { st with is_inside_page := true } rest
        else if lineContains line CLOSING_PAGE then
          match parse_page st.page with
          | Except.error e => Except.error e
          | Except.ok (toks, oinfo) =>
            mainGo
              { is_inside_page := false, page := "",
                pages := st.pages ++ oinfo.toList,
                tag_counter := st.tag_counter ++ toks } rest
        else mainGo { st with page := st.page ++ line ++ "\n" } rest := rfl

theorem mainGo_body (b : List String) :
    ∀ (buf : String) (pages : List PageInfo) (counter : List String)
      (rest : List String),
      (∀ l ∈ b, cleanLine l = true) →
      mainGo ⟨true, buf, pages, counter⟩ (b ++ CLOSING_PAGE :: rest)
        = match parse_page (b.foldl (fun acc l => acc ++ l ++ "\n") buf) with
          | Except.error e => Except.error e
          | Except.ok (toks, oinfo) =>
            mainGo ⟨false, "", pages ++ oinfo.toList, counter ++ toks⟩ rest := by
  induction b with
  | nil =>
    intro buf pages counter rest _
    rw [List.nil_append, mainGo_cons]
    simp only [open_marker_facts.2.2.1]
    rw [if_neg (by simp)]
    rw [if_pos trivial]
    rfl
  | cons l b' ih =>
    intro buf pages counter rest hc
    obtain ⟨hop, hcl⟩ := clean_split (hc l (List.mem_cons_self _ _))
    rw [List.cons_append, mainGo_cons]
    simp only [hop, hcl, Bool.and_false]
    rw [if_neg (by simp)]
    rw [if_neg (by simp)]
    rw [List.foldl_cons]
    exact ih _ pages counter rest fun l' hl' => hc l' (List.mem_cons_of_mem _ hl')

theorem mainGo_page_error (b : List String) (rest : List String)
    (st : LoopState) (hin : st.is_inside_page = false)
    (hc : ∀ l ∈ b, cleanLine l = true) (e : String)
    (herr : parse_page (b.foldl (fun acc l => acc ++ l ++ "\n") st.page)
      = Except.error e) :
    mainGo st (mkPage b ++ rest) = Except.error e := by
  obtain ⟨inside, buf, pages, counter⟩ := st
  simp only at hin herr
  subst hin
  rw [show mkPage b ++ rest = OPENING_PAGE :: ((b ++ [CLOSING_PAGE]) ++ rest) from rfl,
    mainGo_cons]
  rw [if_pos (by simp [open_marker_facts.1])]
  dsimp only
  rw [show (b ++ [CLOSING_PAGE]) ++ rest = b ++ CLOSING_PAGE :: rest from by
    rw [List.append_assoc]
    rfl]
  rw [mainGo_body b buf pages counter rest hc]
  rw [herr]

/-! ### The candidate scanner vs the spec's pattern -/

theorem drop_takeWhile_length (p : Char → Bool) (u : List Char) :
    u.drop (u.takeWhile p).length = u.dropWhile p := by
  have h := List.drop_left (u.takeWhile p) (u.dropWhile p)
  rwa [List.takeWhile_append_dropWhile] at h

theorem matchTok_some_decomp {pfx t1 cap after : List Char}
    (h : matchTok pfx t1 = some (cap, after)) :
    ∃ tok, cap = pfx ++ tok ∧ t1 = pfx ++ (tok ++ after) ∧ tok ≠ []
      ∧ ∀ c ∈ tok, stopChar c = false := by
  unfold matchTok at h
  by_cases hp : pfx.isPrefixOf t1 = true
  · rw [if_pos hp] at h
    dsimp only at h
    by_cases he : ((t1.drop pfx.length).takeWhile fun c => !stopChar c).isEmpty = true
    · rw [if_pos he] at h
      exact Option.noConfusion h
    · rw [if_neg he] at h
      have hpair := Option.some.inj h
      have hcap : pfx ++ ((t1.drop pfx.length).takeWhile fun c => !stopChar c) = cap :=
        congrArg Prod.fst hpair
      have hafter :
          (t1.drop pfx.length).drop
              ((t1.drop pfx.length).takeWhile fun c => !stopChar c).length = after :=
        congrArg Prod.snd hpair
      rw [drop_takeWhile_length] at hafter
      refine ⟨(t1.drop pfx.length).takeWhile fun c => !stopChar c, hcap.symm, ?_, ?_, ?_⟩
      · have hpre : pfx ++ t1.drop pfx.length = t1 :=
          List.prefix_iff_eq_append.mp (List.isPrefixOf_iff_prefix.mp hp)
        conv_lhs => rw [← hpre]
        rw [← hafter]
        rw [List.takeWhile_append_dropWhile]
      · intro hnil
        rw [hnil] at he
        simp at he
      · intro c hc
        have := List.mem_takeWhile_imp hc
        cases hsc : stopChar c
        · rfl
        · rw [hsc] at this
          simp at this
  · rw [if_neg hp] at h
    exact Option.noConfusion h

theorem pfx_disjoint (t1 : List Char) :
    ¬ (enPfx.isPrefixOf t1 = true ∧ headPfx.isPrefixOf t1 = true) := by
  rintro ⟨he, hh⟩
  cases t1 with
  | nil => simp [enPfx, List.isPrefixOf] at he
  | cons c t =>
    rw [enPfx] at he
    rw [headPfx] at hh
    simp only [List.isPrefixOf, Bool.and_eq_true, beq_iff_eq] at he hh
    exact absurd (he.1.trans hh.1.symm) (by decide)

theorem find?_pair (p : List Char → Bool) (a b : List Char) :
    List.find? p [a, b] = if p a then some a else if p b then some b else none := by
  cases ha : p a <;> cases hb : p b <;>
    simp [List.find?_cons, ha, hb]

theorem tryMatch_cons_cons (c1 c2 : Char) (t : List Char) :
    tryMatch (c1 :: c2 :: t)
      = if c1 = '\x7b' && c2 = '\x7b' then
          match matchTok enPfx (t.dropWhile Char.isWhitespace) with
          | some r => some r
          | none => matchTok headPfx (t.dropWhile Char.isWhitespace)
        else none := rfl

theorem specTokenAt_cons_cons (pfxs : List (List Char)) (c1 c2 : Char) (t : List Char) :
    specTokenAt pfxs (c1 :: c2 :: t)
      = if c1 = '\x7b' && c2 = '\x7b' then
          match pfxs.find? fun p => p.isPrefixOf (t.dropWhile Char.isWhitespace) with
          | some p =>
            let tok := ((t.dropWhile Char.isWhitespace).drop p.length).takeWhile
              fun c => !stopChar c
            if tok.isEmpty then none else some (p ++ tok)
          | none => none
        else none := rfl

theorem tryMatch_fst_spec (l : List Char) :
    (tryMatch l).map Prod.fst = specTokenAt sourcePfxs l := by
  cases l with
  | nil => rfl
  | cons c1 l1 =>
    cases l1 with
    | nil => rfl
    | cons c2 t =>
      rw [tryMatch_cons_cons, specTokenAt_cons_cons]
      by_cases h12 : (c1 = '\x7b' && c2 = '\x7b') = true
      · rw [if_pos h12, if_pos h12]
        by_cases hen : enPfx.isPrefixOf (t.dropWhile Char.isWhitespace) = true
        · have hfind : List.find?
              (fun p => p.isPrefixOf (t.dropWhile Char.isWhitespace)) sourcePfxs
                = some enPfx := by
            rw [sourcePfxs, find?_pair]
            rw [if_pos hen]
          rw [hfind]
          rw [matchTok, if_pos hen]
          dsimp only
          by_cases he :
              (((t.dropWhile Char.isWhitespace).drop enPfx.length).takeWhile
                fun c => !stopChar c).isEmpty = true
          · rw [if_pos he, if_pos he]
            show Option.map Prod.fst (matchTok headPfx (t.dropWhile Char.isWhitespace))
              = none
            have hhd : ¬ headPfx.isPrefixOf (t.dropWhile Char.isWhitespace) = true :=
              fun hh => pfx_disjoint _ ⟨hen, hh⟩
            rw [matchTok, if_neg hhd]
            rfl
          · rw [if_neg he, if_neg he]
            rfl
        · have hme : matchTok enPfx (t.dropWhile Char.isWhitespace) = none := by
            rw [matchTok, if_neg hen]
          rw [hme]
          by_cases hhd : headPfx.isPrefixOf (t.dropWhile Char.isWhitespace) = true
          · have hfind : List.find?
                (fun p => p.isPrefixOf (t.dropWhile Char.isWhitespace)) sourcePfxs
                  = some headPfx := by
              rw [sourcePfxs, find?_pair]
              rw [if_neg (by simp [hen]), if_pos hhd]
            rw [hfind]
            dsimp only
            rw [matchTok, if_pos hhd]
            dsimp only
            by_cases he :
                (((t.dropWhile Char.isWhitespace).drop headPfx.length).takeWhile
                  fun c => !stopChar c).isEmpty = true
            · rw [if_pos he, if_pos he]
              rfl
            · rw [if_neg he, if_neg he]
              rfl
          · have hfind : List.find?
                (fun p => p.isPrefixOf (t.dropWhile Char.isWhitespace)) sourcePfxs
                  = none := by
              rw [sourcePfxs, find?_pair]
              rw [if_neg (by simp [hen]), if_neg (by simp [hhd])]
            rw [hfind]
            rw [matchTok, if_neg hhd]
            rfl
      · rw [if_neg h12, if_neg h12]
        rfl

theorem ws_ne_brace {c : Char} (h : Char.isWhitespace c = true) : ¬ c = '\x7b' := by
  intro hc
  subst hc
  exact absurd h (by decide)

theorem stop_ne_brace {c : Char} (h : stopChar c = false) : ¬ c = '\x7b' := by
  intro hc
  subst hc
  exact absurd h (by decide)

theorem tryMatch_some_decomp {l cap after : List Char}
    (h : tryMatch l = some (cap, after)) :
    ∃ ws, l = '\x7b' :: '\x7b' :: (ws ++ (cap ++ after))
      ∧ (∀ c ∈ ws, Char.isWhitespace c = true)
      ∧ cap ≠ []
      ∧ ∀ c ∈ cap, ¬ c = '\x7b' := by
  cases l with
  | nil => simp [tryMatch] at h
  | cons c1 l1 =>
    cases l1 with
    | nil => simp [tryMatch] at h
    | cons c2 t =>
      rw [tryMatch_cons_cons] at h
      by_cases h12 : (c1 = '\x7b' && c2 = '\x7b') = true
      · rw [if_pos h12] at h
        have hc12 : c1 = '\x7b' ∧ c2 = '\x7b' := by simpa using h12
        have ht : t.takeWhile Char.isWhitespace ++ t.dropWhile Char.isWhitespace = t :=
          List.takeWhile_append_dropWhile _ _
        have main : ∀ pfx : List Char,
            matchTok pfx (t.dropWhile Char.isWhitespace) = some (cap, after) →
            (∀ c ∈ pfx, ¬ c = '\x7b') → pfx ≠ [] →
            ∃ ws, c1 :: c2 :: t = '\x7b' :: '\x7b' :: (ws ++ (cap ++ after))
              ∧ (∀ c ∈ ws, Char.isWhitespace c = true)
              ∧ cap ≠ []
              ∧ ∀ c ∈ cap, ¬ c = '\x7b' := by
          intro pfx hm hpfx hpne
          obtain ⟨tok, hcap, ht1, htokne, htokstop⟩ := matchTok_some_decomp hm
          refine ⟨t.takeWhile Char.isWhitespace, ?_,
            fun c hc => List.mem_takeWhile_imp hc, ?_, ?_⟩
          · rw [hc12.1, hc12.2]
            have : t = t.takeWhile Char.isWhitespace ++ (cap ++ after) := by
              conv_lhs => rw [← ht]
              rw [ht1, hcap, List.append_assoc]
            rw [← this]
          · rw [hcap]
            cases pfx with
            | nil => exact absurd rfl hpne
            | cons p ps => simp
          · intro c hc
            rw [hcap] at hc
            rcases List.mem_append.mp hc with hp | htk
            · exact hpfx c hp
            · exact stop_ne_brace (htokstop c htk)
        cases hm : matchTok enPfx (t.dropWhile Char.isWhitespace) with
        | some r =>
          rw [hm] at h
          obtain ⟨rcap, rafter⟩ := r
          have : (rcap, rafter) = (cap, after) := Option.some.inj h
          rw [this] at hm
          exact main enPfx hm (by decide) (by decide)
        | none =>
          rw [hm] at h
          dsimp only at h
          exact main headPfx h (by decide) (by decide)
      · rw [if_neg h12] at h
        exact Option.noConfusion h

theorem tryMatch_length {l cap after : List Char}
    (h : tryMatch l = some (cap, after)) : after.length < l.length := by
  obtain ⟨ws, heq, _, hcap, _⟩ := tryMatch_some_decomp h
  rw [heq]
  simp only [List.length_cons, List.length_append]
  cases cap with
  | nil => exact absurd rfl hcap
  | cons c cs => simp; omega

theorem scanFuel_nil : ∀ fuel, scanFuel fuel [] = [] := by
  intro fuel
  cases fuel <;> rfl

theorem scanFuel_congr :
    ∀ (fuel fuel' : Nat) (l : List Char),
      l.length ≤ fuel → l.length ≤ fuel' → scanFuel fuel l = scanFuel fuel' l := by
  intro fuel
  induction fuel with
  | zero =>
    intro fuel' l h _
    have : l = [] := List.eq_nil_of_length_eq_zero (by omega)
    subst this
    rw [scanFuel_nil, scanFuel_nil]
  | succ fuel ih =>
    intro fuel' l h h'
    cases fuel' with
    | zero =>
      have : l = [] := List.eq_nil_of_length_eq_zero (by omega)
      subst this
      rw [scanFuel_nil, scanFuel_nil]
    | succ fuel'' =>
      cases l with
      | nil => rw [scanFuel_nil, scanFuel_nil]
      | cons c rest =>
        rw [scanFuel, scanFuel]
        cases hm : tryMatch (c :: rest) with
        | some pr =>
          obtain ⟨cap, after⟩ := pr
          have hlen := tryMatch_length hm
          rw [List.length_cons] at h h' hlen
          dsimp only
          rw [ih fuel'' after (by omega) (by omega)]
        | none =>
          rw [List.length_cons] at h h'
          dsimp only
          exact ih fuel'' rest (by omega) (by omega)

theorem scanTags_some {l cap after : List Char}
    (h : tryMatch l = some (cap, after)) :
    scanTags l = cap :: scanTags after := by
  unfold scanTags
  cases l with
  | nil => simp [tryMatch] at h
  | cons c rest =>
    have hlen := tryMatch_length h
    rw [List.length_cons, scanFuel, h]
    dsimp only
    rw [List.length_cons] at hlen
    rw [scanFuel_congr rest.length after.length after (by omega) (by omega)]

theorem scanTags_cons_none {c : Char} {rest : List Char}
    (h : tryMatch (c :: rest) = none) :
    scanTags (c :: rest) = scanTags rest := by
  unfold scanTags
  rw [List.length_cons, scanFuel, h]

theorem specScan_cons (pfxs : List (List Char)) (c : Char) (rest : List Char) :
    specScan pfxs (c :: rest)
      = (match specTokenAt pfxs (c :: rest) with
         | some cap => [cap]
         | none => []) ++ specScan pfxs rest := rfl

theorem specTokenAt_none_head {pfxs : List (List Char)} {c : Char}
    (hc : ¬ c = '\x7b') (rest : List Char) :
    specTokenAt pfxs (c :: rest) = none := by
  cases rest with
  | nil => rfl
  | cons c2 t =>
    rw [specTokenAt_cons_cons]
    rw [if_neg (by simp [hc])]

theorem specTokenAt_none_second {pfxs : List (List Char)} {c2 : Char}
    (hc : ¬ c2 = '\x7b') (t : List Char) :
    specTokenAt pfxs ('\x7b' :: c2 :: t) = none := by
  rw [specTokenAt_cons_cons]
  rw [if_neg (by simp [hc])]

theorem specScan_no_brace (pfxs : List (List Char)) :
    ∀ (mid after : List Char), (∀ c ∈ mid, ¬ c = '\x7b') →
      specScan pfxs (mid ++ after) = specScan pfxs after := by
  intro mid
  induction mid with
  | nil => intro after _; rfl
  | cons c mid' ih =>
    intro after hc
    rw [List.cons_append, specScan_cons,
      specTokenAt_none_head (hc c (List.mem_cons_self _ _)) _]
    dsimp only
    rw [List.nil_append]
    exact ih after fun c' hc' => hc c' (List.mem_cons_of_mem _ hc')

theorem scan_eq_spec_aux :
    ∀ n, ∀ l : List Char, l.length ≤ n → scanTags l = specScan sourcePfxs l := by
  intro n
  induction n with
  | zero =>
    intro l h
    have : l = [] := List.eq_nil_of_length_eq_zero (by omega)
    subst this
    rfl
  | succ n ih =>
    intro l hl
    cases l with
    | nil => rfl
    | cons c rest =>
      rw [List.length_cons] at hl
      cases hm : tryMatch (c :: rest) with
      | none =>
        rw [scanTags_cons_none hm, specScan_cons]
        have hspec : specTokenAt sourcePfxs (c :: rest) = none := by
          have hts := tryMatch_fst_spec (c :: rest)
          rw [hm] at hts
          simpa using hts.symm
        rw [hspec]
        dsimp only
        rw [List.nil_append]
        exact ih rest (by omega)
      | some pr =>
        obtain ⟨cap, after⟩ := pr
        have hlen := tryMatch_length hm
        rw [List.length_cons] at hlen
        rw [scanTags_some hm]
        obtain ⟨ws, heq, hws, hcapne, hcapnb⟩ := tryMatch_some_decomp hm
        have hspec : specTokenAt sourcePfxs (c :: rest) = some cap := by
          have hts := tryMatch_fst_spec (c :: rest)
          rw [hm] at hts
          simpa using hts.symm
        rw [specScan_cons, hspec]
        dsimp only
        have hrest : rest = '\x7b' :: (ws ++ (cap ++ after)) := by
          injection heq with h1 h2
        rw [hrest]
        have hnb : ∀ x ∈ ws ++ cap, ¬ x = '\x7b' := by
          intro x hx
          rcases List.mem_append.mp hx with hw | hcp
          · exact ws_ne_brace (hws x hw)
          · exact hcapnb x hcp
        have hatt : specTokenAt sourcePfxs ('\x7b' :: (ws ++ (cap ++ after))) = none := by
          have hx : ∃ x xs, ws ++ (cap ++ after) = x :: xs ∧ ¬ x = '\x7b' := by
            cases hwsc : ws with
            | nil =>
              cases hcapc : cap with
              | nil => exact absurd hcapc hcapne
              | cons y ys =>
                exact ⟨y, ys ++ after, by simp, hcapnb y (by simp [hcapc])⟩
            | cons w wsrest =>
              exact ⟨w, wsrest ++ (cap ++ after), by simp,
                ws_ne_brace (hws w (by simp [hwsc]))⟩
          obtain ⟨x, xs, hxe, hxne⟩ := hx
          rw [hxe]
          exact specTokenAt_none_second hxne xs
        rw [specScan_cons, hatt]
        dsimp only
        rw [List.nil_append]
        rw [show ws ++ (cap ++ after) = (ws ++ cap) ++ after from
          (List.append_assoc ws cap after).symm]
        rw [specScan_no_brace sourcePfxs (ws ++ cap) after hnb]
        rw [List.singleton_append]
        congr 1
        exact ih after (by omega)

theorem scan_eq_spec (l : List Char) : scanTags l = specScan sourcePfxs l :=
  scan_eq_spec_aux l.length l (le_refl _)

theorem extract_fold_testBit (caps : List (List Char)) :
    ∀ (acc : Nat) (i : Nat),
      ((caps.foldl
        (fun tags cap =>
          match aliasLookup (String.mk (trimChars cap)) with
          | some mask => TagSet.insert_tag_mask tags mask
          | none => tags) acc).testBit i)
        = (acc.testBit i || caps.any fun cap =>
            match aliasLookup (String.mk (trimChars cap)) with
            | some mask => mask.testBit i
            | none => false) := by
  induction caps with
  | nil => intro acc i; simp
  | cons c cs ih =>
    intro acc i
    rw [List.foldl_cons, ih, List.any_cons]
    cases hl : aliasLookup (String.mk (trimChars c)) with
    | none =>
      simp only [hl]
      simp
    | some mask =>
      simp only [hl, TagSet.insert_tag_mask, Nat.testBit_lor]
      simp [Bool.or_assoc]

theorem extract_testBit (body : List Char) (i : Nat) :
    (extractTags body).testBit i
      = (scanTags body).any fun cap =>
          match aliasLookup (String.mk (trimChars cap)) with
          | some mask => mask.testBit i
          | none => false := by
  unfold extractTags
  rw [extract_fold_testBit]
  simp

/-! ### The claims -/

/-- C1, counterexample: the claim puts the `k`-th tag at bit `k` with
bits 13-31 always zero, but the 0th tag `Adjective` has mask `2 = 2^1`,
not `2^0`, and the TagSet of `Verb` (the 12th tag) has bit 13 set. -/
theorem c1_counterexample :
    Tag.to_mask Tag.Adjective = 2 ∧ ¬ Tag.to_mask Tag.Adjective = 2 ^ 0
      ∧ (TagSet.of [Tag.Verb]).testBit 13 = true := by
  decide

/-- C1 (amended): the bit assigned to the `k`-th tag of the canonical
enumeration is `k + 1`, so bits 1 through 13 are the only bits used:
bit 0 is clear and bits above 13 are zero (the value is below `2^14`)
in every TagSet built from Tags, in every TagSet extracted from a page
body, and in every value the aggregation stores in the artifact. -/
theorem c1_amended :
    (∀ t : Tag, Tag.to_mask t = 2 ^ (t.index + 1))
    ∧ (∀ l : List Tag, TagSet.of l < 2 ^ 14 ∧ TagSet.of l % 2 = 0)
    ∧ (∀ body : List Char, extractTags body < 2 ^ 14 ∧ extractTags body % 2 = 0)
    ∧ (∀ (u low : String → String) (opts : FSTOptions) (pages : List PageInfo),
        (∀ p ∈ pages, goodMask p.tags) →
        ∀ e ∈ aggregatePages u low opts pages, e.2 < 2 ^ 14 ∧ e.2 % 2 = 0) := by
  refine ⟨to_mask_eq, ?_, ?_, ?_⟩
  · intro l
    exact ⟨goodMask_lt (goodMask_of l), goodMask_even (goodMask_of l)⟩
  · intro body
    exact ⟨goodMask_lt (goodMask_extract body), goodMask_even (goodMask_extract body)⟩
  · intro u low opts pages hp e he
    have hg := goodMask_values_aggregate u low opts pages hp e he
    exact ⟨goodMask_lt hg, goodMask_even hg⟩

/-- Witness for C1's amended theorem at a concrete aggregation. -/
theorem c1_witness :
    TagSet.of [Tag.Verb] < 2 ^ 14 ∧ TagSet.of [Tag.Verb] % 2 = 0 := by
  have h := c1_amended.2.2.2 id id ⟨true, true⟩ [⟨"cat", TagSet.of [Tag.Verb]⟩]
    (by
      intro p hp
      rw [List.mem_singleton] at hp
      subst hp
      exact goodMask_of [Tag.Verb])
    ("cat", TagSet.of [Tag.Verb]) (by decide)
  exact h

/-- C2, counterexample: a titleless first page makes the whole run abort
with the per-page error — the later, well-formed page (whose own parse
succeeds, second conjunct) is never processed — contradicting "the build
continues with the remaining pages". -/
theorem c2_counterexample :
    mainLoop ["<page>", "junk", "</page>", "<page>",
        "<title>cat</title>", "<text \x7b\x7ben-noun\x7d\x7d", "</page>"]
      = Except.error "Failed to find title for page"
    ∧ parse_page "<title>cat</title>\n<text \x7b\x7ben-noun\x7d\x7d\n"
      = Except.ok (["en-noun"], some ⟨"cat", 64⟩) := by
  exact ⟨rfl, rfl⟩

/-- C2 (amended): a page whose text contains no title pattern makes
`parse_page` return an error which the main loop propagates via `?`,
aborting the whole run regardless of the remaining input. -/
theorem c2_amended (b : List String) (rest : List String)
    (hb : ∀ l ∈ b, cleanLine l = true)
    (hnt : findTitle (terminateLines b).toList = none) :
    mainLoop (mkPage b ++ rest) = Except.error "Failed to find title for page" := by
  unfold mainLoop
  rw [mainGo_page_error b rest ⟨false, "", [], []⟩ rfl hb
    "Failed to find title for page" ?herr]
  · rfl
  case herr =>
    unfold parse_page
    rw [show (b.foldl (fun acc l => acc ++ l ++ "\n") ("" : String))
        = terminateLines b from rfl]
    rw [hnt]

/-- Witness for C2's amended theorem. -/
theorem c2_witness :
    mainLoop (mkPage ["junk"] ++ ["<page>"])
      = Except.error "Failed to find title for page" :=
  c2_amended ["junk"] ["<page>"] (by decide) (by decide)

/-- C3, counterexample: a line before the first opening marker is
accumulated into the buffer and handed to the parser as part of the
first page's text, so the handed text is not only the lines strictly
between the markers. -/
theorem c3_counterexample :
    streamPages ["junk", "<page>", "a", "</page>"] = ["junk\na\n"]
    ∧ ¬ ("junk\na\n" : String) = "a\n" ∧ ¬ ("junk\na\n" : String) = "a" := by
  exact ⟨rfl, by decide, by decide⟩

/-- C3 (amended): when every line other than the markers is clean, the
texts handed to the parser are exactly the newline-terminated bodies of
the closed pages — both for a fully closed input and for one followed by
a trailing opened-but-unclosed page, which is never emitted — and with
the unterminated page the stream yields one fewer page than the count
of opening-marker lines. -/
theorem c3_amended (bodies : List (List String)) (tail : List String)
    (hb : ∀ b ∈ bodies, ∀ l ∈ b, cleanLine l = true)
    (ht : ∀ l ∈ tail, cleanLine l = true) :
    streamPages (bodies.map mkPage).flatten = bodies.map terminateLines
    ∧ streamPages ((bodies.map mkPage).flatten ++ (OPENING_PAGE :: tail))
      = bodies.map terminateLines
    ∧ (streamPages ((bodies.map mkPage).flatten ++ (OPENING_PAGE :: tail))).length + 1
        = (((bodies.map mkPage).flatten ++ (OPENING_PAGE :: tail)).filter
            fun l => lineContains l OPENING_PAGE).length := by
  have h0 : streamPages (bodies.map mkPage).flatten = bodies.map terminateLines := by
    unfold streamPages
    rw [streamGo_run_closed bodies [] hb, List.nil_append]
  have h1 : streamPages ((bodies.map mkPage).flatten ++ (OPENING_PAGE :: tail))
      = bodies.map terminateLines := by
    unfold streamPages
    rw [streamGo_run bodies [] tail hb ht, List.nil_append]
  refine ⟨h0, h1, ?_⟩
  rw [h1, count_opens bodies tail hb ht, List.length_map]

/-- Witness for C3's amended theorem. -/
theorem c3_witness :
    streamPages ([["a"], ["b"]].map mkPage).flatten
      = [["a"], ["b"]].map terminateLines
    ∧ streamPages (([["a"], ["b"]].map mkPage).flatten ++ (OPENING_PAGE :: ["x"]))
      = [["a"], ["b"]].map terminateLines
    ∧ (streamPages (([["a"], ["b"]].map mkPage).flatten
        ++ (OPENING_PAGE :: ["x"]))).length + 1
        = ((([["a"], ["b"]].map mkPage).flatten ++ (OPENING_PAGE :: ["x"])).filter
            fun l => lineContains l OPENING_PAGE).length :=
  c3_amended [["a"], ["b"]] ["x"] (by decide) (by decide)

/-- C4, counterexample: the claim's prefix+pipe+head+pipe form
(`en|head|`) is not what the source regex matches: on a body containing
an `en|head|adj` invocation — an alias in the table, worth bit 1 — the
source scanner finds no candidate and contributes nothing, while the
claim's reading of the pattern captures it. -/
theorem c4_counterexample :
    scanTags "\x7b\x7ben|head|adj\x7d\x7d".toList = []
    ∧ specScan claimedPfxs "\x7b\x7ben|head|adj\x7d\x7d".toList
        = ["en|head|adj".toList]
    ∧ aliasLookup "en|head|adj" = some 2
    ∧ extractTags "\x7b\x7ben|head|adj\x7d\x7d".toList = 0 := by
  exact ⟨by decide, by decide, by decide, by decide⟩

/-- C4 (amended): the candidate scan matches exactly the occurrences of
two opening braces, optional whitespace, and a token beginning with the
prefix-hyphen form (`en-`) or with the head+pipe+prefix+pipe form
(`head|en|`), the captured token stopping at the first pipe, brace,
digit, dot or ampersand (first conjunct, position-by-position); and a
bit is set in the page's TagSet exactly when some trimmed candidate
literally resolves to an alias whose tag mask carries that bit (second
conjunct). -/
theorem c4_amended :
    (∀ body : List Char, scanTags body = specScan sourcePfxs body)
    ∧ (∀ (body : List Char) (i : Nat),
        (extractTags body).testBit i = true ↔
          ∃ cap ∈ scanTags body, ∃ mask,
            aliasLookup (String.mk (trimChars cap)) = some mask
              ∧ mask.testBit i = true) := by
  refine ⟨scan_eq_spec, ?_⟩
  intro body i
  rw [extract_testBit, List.any_eq_true]
  constructor
  · rintro ⟨cap, hc, hmatch⟩
    cases hl : aliasLookup (String.mk (trimChars cap)) with
    | none =>
      rw [hl] at hmatch
      exact absurd hmatch (by simp)
    | some mask =>
      rw [hl] at hmatch
      exact ⟨cap, hc, mask, hl, hmatch⟩
  · rintro ⟨cap, hc, mask, hl, hbit⟩
    refine ⟨cap, hc, ?_⟩
    rw [hl]
    exact hbit

/-- C5: the exclusion mask `{Noun, ProperNoun}` decides only inclusion —
an entry appears in the aggregated artifact input iff some record
survives the per-record exclusion test, and the stored value is the
union of the surviving records' original, unfiltered TagSets (first
conjunct); on the spec's example, pages "Cat" `{Noun}` and "cat"
`{Noun, Verb}` produce the single kept entry "cat" storing the full
set `{Noun, Verb}` (second conjunct). -/
theorem c5_aggregator_exclusion :
    (∀ (u low : String → String) (fl : Bool) (pages : List PageInfo)
        (k : String) (v : Nat),
      (k, v) ∈ aggregatePages u low ⟨fl, true⟩ pages ↔
        ((keptPages u low ⟨fl, true⟩ pages).any fun kv => kv.1 == k) = true
          ∧ v = mergedValue (keptPages u low ⟨fl, true⟩ pages) k)
    ∧ aggregatePages id id ⟨true, true⟩
        [⟨"Cat", TagSet.of [Tag.Noun]⟩, ⟨"cat", TagSet.of [Tag.Noun, Tag.Verb]⟩]
      = [("cat", TagSet.of [Tag.Noun, Tag.Verb])] := by
  constructor
  · intro u low fl pages k v
    rw [aggregatePages, mem_sortByKey]
    constructor
    · intro hmem
      have hlk := lookup_mem_unique _ k v (nodup_keys_groupByTitle _) hmem
      rw [lookup_groupByTitle] at hlk
      by_cases hany :
          ((keptPages u low ⟨fl, true⟩ pages).any fun kv => kv.1 == k) = true
      · rw [if_pos hany] at hlk
        exact ⟨hany, (Option.some.inj hlk).symm⟩
      · rw [if_neg hany] at hlk
        exact Option.noConfusion hlk
    · rintro ⟨hany, rfl⟩
      apply lookup_mem
      rw [lookup_groupByTitle, if_pos hany]
  · decide

/-- C6: insertion sequences out of strictly ascending byte order are
rejected with a construction error: an `extend_iter` run over keys that
are not strictly ascending errors (first conjunct), and after a
successful `insert_tag_set` of key `k`, inserting any `k'` not
byte-greater than `k` — including the duplicate `k' = k` — errors
(second conjunct). -/
theorem c6_builder_rejects :
    (∀ entries : List (String × Nat),
      ¬ List.Chain' (fun p q => strLt p.1 q.1 = true) entries →
      ∃ e, TagsBuilder.extend_iter [] entries = Except.error e)
    ∧ (∀ (b b' : List (String × Nat)) (k k' : String) (ts ts' : Nat),
        TagsBuilder.insert_tag_set b k ts = Except.ok b' →
        strLt k k' = false →
        TagsBuilder.insert_tag_set b' k' ts'
          = Except.error "out-of-order or duplicate key") := by
  constructor
  · intro entries hch
    cases hr : TagsBuilder.extend_iter [] entries with
    | error e => exact ⟨e, rfl⟩
    | ok res =>
      exfalso
      apply hch
      have h := extend_ok_chain entries [] res hr
      simp only [List.map_nil, Option.toList, List.nil_append] at h
      exact (List.chain'_map Prod.fst).mp h
  · intro b b' k k' ts ts' hok hlt
    have hb' : b' = b ++ [(k, ts)] := fstInsert_ok_shape hok
    unfold TagsBuilder.insert_tag_set fstInsert
    have hlast : (b'.map Prod.fst).getLast? = some k := by
      rw [hb']
      simp [List.getLast?_append]
    rw [hlast]
    dsimp only
    rw [if_neg (by simp [hlt])]

/-- Witness for C6: "bat" after "cat" fails, and "cat" twice fails. -/
theorem c6_witness :
    (∃ e, TagsBuilder.extend_iter [] [("cat", 1), ("bat", 2)] = Except.error e)
    ∧ TagsBuilder.insert_tag_set [("cat", 1)] "bat" 2
        = Except.error "out-of-order or duplicate key"
    ∧ TagsBuilder.insert_tag_set [("cat", 1)] "cat" 7
        = Except.error "out-of-order or duplicate key" :=
  ⟨c6_builder_rejects.1 [("cat", 1), ("bat", 2)]
    (by
      intro h
      rw [List.chain'_cons] at h
      exact absurd h.1 (by decide)),
   c6_builder_rejects.2 [] [("cat", 1)] "cat" "bat" 1 2 rfl (by decide),
   c6_builder_rejects.2 [] [("cat", 1)] "cat" "cat" 1 7 rfl (by decide)⟩

/-- C7: building from a finite, strictly ascending (by byte order)
sequence of `(title, TagSet)` pairs succeeds, and the reader then
returns exactly the stored TagSet for every inserted title and `none`
for every string never inserted. -/
theorem c7_build_then_get :
    ∀ entries : List (String × Nat),
      List.Chain' (fun p q => strLt p.1 q.1 = true) entries →
      (∀ p ∈ entries, p.2 < 2 ^ 32) →
      TagsBuilder.extend_iter [] entries = Except.ok entries
      ∧ (∀ k v, (k, v) ∈ entries →
          TagsLookup.get entries k = some (TagSet.from_mask v))
      ∧ ∀ k, k ∉ entries.map Prod.fst → TagsLookup.get entries k = none := by
  intro entries hch hlt
  have hkeys : (entries.map Prod.fst).Nodup := nodup_keys_of_chain' entries hch
  refine ⟨?_, ?_, ?_⟩
  · have hck : List.Chain' (fun a c => strLt a c = true) (entries.map Prod.fst) :=
      (List.chain'_map Prod.fst).mpr hch
    have h := extend_iter_ok entries [] (by simpa using hck)
    simpa using h
  · intro k v hm
    unfold TagsLookup.get fstGet
    rw [lookup_mem_unique entries k v hkeys hm]
    simp [TagSet.from_mask]
    exact hlt (k, v) hm
  · intro k hk
    unfold TagsLookup.get fstGet
    rw [lookup_not_mem entries k hk]
    rfl

/-- Witness for C7 on a two-entry artifact, with a hit, a near-miss and
a case-variant miss. -/
theorem c7_witness :
    TagsBuilder.extend_iter [] [("cat", 8256), ("dog", 64)]
      = Except.ok [("cat", 8256), ("dog", 64)]
    ∧ TagsLookup.get [("cat", 8256), ("dog", 64)] "cat"
        = some (TagSet.from_mask 8256)
    ∧ TagsLookup.get [("cat", 8256), ("dog", 64)] "zzzqqq123" = none
    ∧ TagsLookup.get [("cat", 8256), ("dog", 64)] "Cat" = none := by
  have h := c7_build_then_get [("cat", 8256), ("dog", 64)]
    (by
      refine List.chain'_cons.mpr ⟨?_, List.chain'_singleton _⟩
      decide)
    (by decide)
  exact ⟨h.1, h.2.1 "cat" 8256 (by decide), h.2.2 "zzzqqq123" (by decide),
    h.2.2 "Cat" (by decide)⟩

/-- C8: `TagSet::of(tags).tags()` yields exactly the distinct input
tags, each exactly once, in ascending canonical-enumeration order (the
filter of the canonical enumeration by membership in the input),
regardless of input order and duplicates; every element is a `some`
(no panic). -/
theorem c8_of_tags_roundtrip (l : List Tag) :
    TagSet.tags (TagSet.of l)
      = (allTags.filter fun t => decide (t ∈ l)).map some := by
  have hgood := goodMask_of l
  have h0 : (TagSet.of l).testBit 0 = false := by
    by_contra hb
    have := hgood 0 (eq_true_of_ne_false hb)
    omega
  rw [tags_eq_filter (goodMask_lt hgood) h0]
  refine filter_map_lockstep _ _ _ _ corr_forall₂ ?_
  intro i t h
  rw [from_u32_some h, of_testBit, any_index_eq]

/-- C9: a page with a title but no `<text` marker parses successfully
with no record and no tallies: nothing of it reaches the output. -/
theorem c9_no_text_marker (p : String) (cap : List Char)
    (h1 : findTitle p.toList = some cap) (h2 : findText p.toList = none) :
    parse_page p = Except.ok ([], none) := by
  unfold parse_page
  rw [h1, h2]

/-- Witness for C9. -/
theorem c9_witness : parse_page "<title>x</title>" = Except.ok ([], none) :=
  c9_no_text_marker "<title>x</title>" ['x'] (by decide) (by decide)

/-- C10: a mask (in `u32` range) whose set bits lie only in positions 1
through 13 never reaches the panic inside `Tag::from_u32` when
iterating `tags()`; TagSets built via `of`, `insert_tag` or `extend`
from Tags satisfy that bit condition; and the panic branch is reached
from raw masks with bit 0 set or a bit above 13 set. -/
theorem c10_panic_reachability :
    (∀ m : Nat, m < 2 ^ 32 →
        (∀ i, i < 32 → m.testBit i = true → 1 ≤ i ∧ i ≤ 13) →
        Option.none ∉ TagSet.tags m)
    ∧ (∀ l : List Tag, goodMask (TagSet.of l))
    ∧ (∀ (m : Nat) (t : Tag), goodMask m → goodMask (TagSet.insert_tag m t))
    ∧ (∀ m other : Nat, goodMask m → goodMask other → goodMask (TagSet.extend m other))
    ∧ Option.none ∈ TagSet.tags (TagSet.from_mask 1)
    ∧ Option.none ∈ TagSet.tags (TagSet.from_mask (2 ^ 14)) := by
  refine ⟨?_, goodMask_of, ?_, ?_, by decide, by decide⟩
  · intro m hm32 hbits
    have hgood : goodMask m := by
      intro i hbit
      by_cases hi : i < 32
      · exact hbits i hi hbit
      · exfalso
        have hfar : m.testBit i = false :=
          Nat.testBit_lt_two_pow
            (lt_of_lt_of_le hm32 (Nat.pow_le_pow_right (by omega) (by omega)))
        rw [hfar] at hbit
        exact Bool.noConfusion hbit
    have h0 : m.testBit 0 = false := by
      by_contra hb
      have := hgood 0 (eq_true_of_ne_false hb)
      omega
    intro hmem
    rw [tags_eq_filter (goodMask_lt hgood) h0, List.mem_map] at hmem
    obtain ⟨i, hi, hnone⟩ := hmem
    rw [List.mem_filter] at hi
    have hbounds := hgood i hi.2
    have hsome := from_u32_isSome i (by omega) hbounds.1
    rw [hnone] at hsome
    exact Bool.noConfusion hsome
  · exact fun m t hg => goodMask_or hg (goodMask_to_mask t)
  · exact fun m other hg ho => goodMask_or hg ho

/-- Witness for C10: the mask `2` (bit 1 only) iterates without panic,
and the insert/extend closure applies from the empty mask. -/
theorem c10_witness :
    Option.none ∉ TagSet.tags 2 ∧ goodMask (TagSet.insert_tag 0 Tag.Verb) :=
  ⟨c10_panic_reachability.1 2 (by decide) (by decide),
   c10_panic_reachability.2.2.1 0 Tag.Verb goodMask_zero⟩
